import Mathlib

/-
Verification development for the MBOX indexer / session-cache core of the
email-app repository (`packages/pst-core/src/mbox-parser.ts`).

The TypeScript source is shallowly embedded:
  * JS strings are Lean `String`s, but every string primitive the source uses
    (`split`, `trim`, `parseInt`, `startsWith`, ...) is re-implemented here over
    `String.data` so that all definitions reduce in the kernel.
  * A JS `Map` is modelled as an insertion-ordered association list
    (`jmFind` / `jmSet` ...): `set` of an existing key updates it in place,
    `set` of a new key appends; iteration order is list order, exactly the
    iteration-order guarantee of a JS `Map`.
  * Byte buffers are `List Nat`.
  * File reads and the external `postal-mime` MIME decoder are modelled as
    session-level functions of the message ordinal (the file is immutable and
    the decoder deterministic, so the composition `read bytes; decode` is a
    pure function of the ordinal); success/failure of the decoder on the
    truncated summary prefix is a `Option`-valued function.
-/

namespace Mbox

-- ───────────────────────── JS string primitives ─────────────────────────

/-- ASCII whitespace as recognised by JS `trim` / `parseInt`. -/
def jsIsSpace (c : Char) : Bool :=
  c == ' ' || c == Char.ofNat 9 || c == Char.ofNat 10 || c == Char.ofNat 13 ||
    c == Char.ofNat 11 || c == Char.ofNat 12

/-- `String.prototype.trim` on the character list. -/
def jsTrimChars (s : List Char) : List Char :=
  ((s.dropWhile jsIsSpace).reverse.dropWhile jsIsSpace).reverse

/-- `String.prototype.trim`. -/
def jsTrim (s : String) : String := String.mk (jsTrimChars s.data)

/-- Worker for `String.prototype.split` with a non-empty string separator:
`acc` holds the (reversed) characters of the current field. The `fuel`
argument only makes the recursion structural: every step consumes at least
one character of the third argument, so `fuel = length + 1` never runs out. -/
def jsSplitAux (sep : List Char) : Nat → List Char → List Char → List (List Char)
  | 0, acc, _ => [acc.reverse]
  | _ + 1, acc, [] => [acc.reverse]
  | fuel + 1, acc, c :: rest =>
    if sep.isPrefixOf (c :: rest) then
      acc.reverse :: jsSplitAux sep fuel [] (List.drop (sep.length - 1) rest)
    else
      jsSplitAux sep fuel (c :: acc) rest

/-- `s.split(sep)` for a non-empty string separator (JS semantics:
leftmost-first, non-overlapping; always returns at least one field). -/
def jsSplit (s sep : String) : List String :=
  (jsSplitAux sep.data (s.data.length + 1) [] s.data).map String.mk

/-- Value of a decimal digit string (JS `parseInt` accumulation). -/
def digitsToNat (ds : List Char) : Nat :=
  ds.foldl (fun n c => n * 10 + (c.toNat - 48)) 0

/-- JS `parseInt(s, 10)`: skip leading whitespace, optional sign, then the
longest decimal-digit prefix; `none` models `NaN` (no digits at all).
Trailing non-digit characters are silently ignored. -/
def jsParseInt (s : String) : Option Int :=
  let cs := s.data.dropWhile jsIsSpace
  let signRest : Bool × List Char :=
    match cs with
    | c :: t =>
      if c == Char.ofNat 45 then (true, t)
      else if c == Char.ofNat 43 then (false, t)
      else (false, cs)
    | [] => (false, [])
  let ds := signRest.2.takeWhile Char.isDigit
  if ds.isEmpty then none
  else if signRest.1 then some (-(digitsToNat ds : Int)) else some (digitsToNat ds : Int)

/-- `a.startsWith(p)`. -/
def jsStartsWith (s p : String) : Bool := p.data.isPrefixOf s.data

/-- `s.includes(c)` for a single character. -/
def jsContainsChar (s : String) (c : Char) : Bool := s.data.contains c

/-- `s.substring(n)` / `s.slice(n)` (drop the first `n` characters). -/
def jsDrop (s : String) (n : Nat) : String := String.mk (s.data.drop n)

/-- Decimal rendering of a Nat, as JS string interpolation of a number. -/
def natToStr (n : Nat) : String := String.mk (Nat.toDigits 10 n)

/-- JS `<` / `localeCompare`-style ordering, modelled as code-point
lexicographic comparison (`a ≤ b`). -/
def lexLe : List Char → List Char → Bool
  | [], _ => true
  | _ :: _, [] => false
  | a :: s, b :: t => if a = b then lexLe s t else decide (a < b)

-- ───────────────────── insertion-ordered JS `Map` model ─────────────────────

/-- `Map.prototype.get` (first — and only — binding of the key). -/
def jmFind [DecidableEq K] (m : List (K × V)) (k : K) : Option V :=
  match m with
  | [] => none
  | (k2, v) :: t => if k = k2 then some v else jmFind t k

/-- `Map.prototype.has`. -/
def jmHas [DecidableEq K] (m : List (K × V)) (k : K) : Bool := (jmFind m k).isSome

/-- `map.get(k) ?? d`. -/
def jmGetD [DecidableEq K] (m : List (K × V)) (k : K) (d : V) : V := (jmFind m k).getD d

/-- `Map.prototype.set`: update in place if the key exists (keeping its
insertion position), otherwise append at the end. -/
def jmSet [DecidableEq K] (m : List (K × V)) (k : K) (v : V) : List (K × V) :=
  match m with
  | [] => [(k, v)]
  | (k2, v2) :: t => if k = k2 then (k2, v) :: t else (k2, v2) :: jmSet t k v

/-- `map.keys()` in insertion order. -/
def jmKeys (m : List (K × V)) : List K := m.map Prod.fst

-- ─────────────── Boundary Scanner (`buildMessageIndex`, lines 99-147) ───────────────

/-- The 6-byte chunk-search marker `"\nFrom "` (line 105). -/
def mboxMarker : List Nat := [10, 70, 114, 111, 109, 32]

/-- The 5 bytes `"From "` tested at absolute file offset 0 (lines 125-130). -/
def fromWord : List Nat := [70, 114, 111, 109, 32]

/-- Full occurrence of `mboxMarker` inside `buf` at position `p`. -/
def matchAtB (buf : List Nat) (p : Nat) : Bool := (buf.drop p).take 6 == mboxMarker

/-- `Buffer.indexOf(marker, s)`: position of the leftmost full occurrence of
the marker at or after position `s`, if any. -/
def findFrom (buf : List Nat) (s : Nat) : Option Nat :=
  (List.range' s (buf.length - s)).find? (fun p => matchAtB buf p)

/-- The inner `while` search loop of `buildMessageIndex` (lines 133-139):
positions of all marker occurrences from `searchStart` on, advancing past each
hit by the marker length. Every iteration advances the cursor by at least 6,
so the structural `fuel` never runs out when it starts at `buf.length + 1`. -/
def scanFromF (buf : List Nat) : Nat → Nat → List Nat
  | 0, _ => []
  | fuel + 1, s =>
    if s + 6 ≤ buf.length then
      match findFrom buf s with
      | none => []
      | some idx => idx :: scanFromF buf fuel (idx + 6)
    else []

/-- The search loop started with enough fuel. -/
def scanFrom (buf : List Nat) (s : Nat) : List Nat := scanFromF buf (buf.length + 1) s

/-- One chunked scan pass of `buildMessageIndex` (lines 110-145): `filePos` and
the carried `overlap` are the loop state; the returned list holds the absolute
envelope offsets pushed, in order. Every iteration reads at least one byte
whenever the chunk size `c` is positive, so the structural `fuel` never runs
out when it starts at `file.length + 1`. -/
def scanChunksF (file : List Nat) (c : Nat) : Nat → Nat → List Nat → List Nat
  | 0, _, _ => []
  | fuel + 1, filePos, overlap =>
    if filePos < file.length then
      let bytesRead := min c (file.length - filePos)
      let chunk := (file.drop filePos).take bytesRead
      let scanBuf := overlap ++ chunk
      let scanOffset := filePos - overlap.length
      let startHit : List Nat :=
        if filePos = 0 ∧ 5 ≤ scanBuf.length ∧ scanBuf.take 5 = fromWord then [0] else []
      let searchStart : Nat := if filePos = 0 ∧ overlap = [] then 1 else 0
      let found := (scanFrom scanBuf searchStart).map (fun idx => scanOffset + idx + 1)
      let overlapSize := min 5 bytesRead
      startHit ++ found ++
        scanChunksF file c fuel (filePos + bytesRead) (chunk.drop (bytesRead - overlapSize))
    else []

/-- The envelope-offset list produced by `buildMessageIndex` when scanning with
chunk size `c` (the source fixes `c = 4 MiB`; it is a parameter here so that
chunk-size independence can be stated). -/
def envelopeOffsets (c : Nat) (file : List Nat) : List Nat :=
  scanChunksF file c (file.length + 1) 0 []

/-- The same scan with a single chunk covering the whole file. -/
def envelopeOffsetsSingle (file : List Nat) : List Nat :=
  envelopeOffsets (max file.length 1) file

/-- Reference characterisation of the scan output: offset 0 when the file
opens with `"From "`, plus `p + 1` for every occurrence of `"\nFrom "` at a
position `p ≥ 1`. -/
def envelopeOffsetsSpec (file : List Nat) : List Nat :=
  (if file.take 5 = fromWord then [0] else []) ++
    (((List.range file.length).filter fun p => decide (1 ≤ p) && matchAtB file p).map (· + 1))

/-- Byte image of the two-message file `"From a\nFrom b"`. -/
def exFile : List Nat := [70, 114, 111, 109, 32, 97, 10, 70, 114, 111, 109, 32, 98]

-- ─────────── Folder synthesis (`buildFolderTree`, lines 217-363) ───────────

/-- `MessageIndex` entries (offset / length / Gmail labels), lines 15-22. -/
structure MessageIndex where
  offset : Nat
  length : Nat
  labels : List String
deriving DecidableEq

/-- `PstFolder` tree nodes (`{id, name, messageCount, children}`). -/
inductive PstFolder where
  | mk (id : String) (name : String) (messageCount : Nat) (children : List PstFolder)
deriving Inhabited

def PstFolder.id : PstFolder → String
  | .mk i _ _ _ => i

def PstFolder.name : PstFolder → String
  | .mk _ n _ _ => n

def PstFolder.messageCount : PstFolder → Nat
  | .mk _ _ c _ => c

def PstFolder.children : PstFolder → List PstFolder
  | .mk _ _ _ ch => ch

/-- All node ids of a forest, visited to nesting depth `d` (pre-order). For
`d` at least the forest height this is every id in the forest; structural
recursion on `d` keeps the definition kernel-computable. -/
def idsUpTo : Nat → List PstFolder → List String
  | 0, _ => []
  | d + 1, fs => fs.foldr (fun f acc => f.id :: (idsUpTo d f.children ++ acc)) []

/-- `normalizeLabel` (lines 217-219). -/
def normalizeLabel (label : String) : String := jsTrim label

/-- `GMAIL_LABEL_ORDER` lookup with the `?? 999` default (lines 224-233, 286-287). -/
def gmailLabelOrder (l : String) : Nat :=
  if l = "Inbox" then 0
  else if l = "Starred" then 1
  else if l = "Important" then 2
  else if l = "Sent" then 3
  else if l = "Drafts" then 4
  else if l = "Spam" then 5
  else if l = "Trash" then 6
  else if l = "Chats" then 7
  else 999

/-- The sort comparator of lines 285-290 as a boolean `≤`: system order first,
then alphabetical (`localeCompare` modelled as code-point order). -/
def labelLe (a b : String) : Bool :=
  if gmailLabelOrder a = gmailLabelOrder b then lexLe a.data b.data
  else decide (gmailLabelOrder a < gmailLabelOrder b)

/-- Stable insertion into a sorted list (an element is placed before every
later element it compares `≤` to, preserving the relative order of ties). -/
def insertSorted (le : α → α → Bool) (a : α) : List α → List α
  | [] => [a]
  | b :: t => if le a b then a :: b :: t else b :: insertSorted le a t

/-- Stable sort modelling `Array.prototype.sort` (stable per the JS spec). -/
def stableSort (le : α → α → Bool) : List α → List α
  | [] => []
  | a :: t => insertSorted le a (stableSort le t)

/-- The inner label loop body of lines 256-262: count message `i` under one
normalized label and append its ordinal to that label's list. -/
def labelTick (i : Nat) (st2 : List (String × Nat) × List (String × List Nat))
    (label : String) : List (String × Nat) × List (String × List Nat) :=
  let normalized := normalizeLabel label
  if normalized = "" then st2
  else
    (jmSet st2.1 normalized (jmGetD st2.1 normalized 0 + 1),
     jmSet st2.2 normalized (jmGetD st2.2 normalized [] ++ [i]))

/-- The body of the per-message loop of `buildFolderTree` (lines 247-263):
the `"All Mail"` fallback for unlabeled messages, then the per-label loop. -/
def collectStep (st : List (String × Nat) × List (String × List Nat)) (i : Nat)
    (labels : List String) : List (String × Nat) × List (String × List Nat) :=
  let st1 :=
    if labels.isEmpty then
      (jmSet st.1 "All Mail" (jmGetD st.1 "All Mail" 0 + 1),
       jmSet st.2 "All Mail" (jmGetD st.2 "All Mail" [] ++ [i]))
    else st
  labels.foldl (labelTick i) st1

/-- The per-message loop (lines 247-263), running `collectStep` over the index
in ordinal order. -/
def collectGo (st : List (String × Nat) × List (String × List Nat)) (i : Nat) :
    List MessageIndex → List (String × Nat) × List (String × List Nat)
  | [] => st
  | m :: rest => collectGo (collectStep st i m.labels) (i + 1) rest

/-- Lines 244-263: `labelCounts` and `labelMessages` from scratch. -/
def collectLabels (midx : List MessageIndex) :
    List (String × Nat) × List (String × List Nat) :=
  collectGo ([], []) 0 midx

/-- Lines 265-276: force the `"All Mail"` entry to hold every ordinal and its
count to the index length. -/
def addAllMail (midx : List MessageIndex) (counts : List (String × Nat))
    (msgs : List (String × List Nat)) :
    List (String × Nat) × List (String × List Nat) :=
  let msgs1 := if jmHas msgs "All Mail" then msgs else jmSet msgs "All Mail" []
  (jmSet counts "All Mail" midx.length,
   jmSet msgs1 "All Mail" (List.range midx.length))

/-- A `topLevel` entry: a completed flat folder, or a reference to a nested
root node allocated in the `nestedFolders` arena. -/
inductive TopEntry where
  | flat (f : PstFolder)
  | nestedRoot (path : String)

/-- Mutable state of the label loop of lines 278-350: `topOrder` is the
`topLevel` array (nested roots by reference), `catChildren` the `Categories`
children, `nestedInfo` / `nestedKids` the `nestedFolders` arena (name, own
count, and child paths per path), `processed` the `processedLabels` set. -/
structure TreeState where
  topOrder : List TopEntry
  catChildren : List PstFolder
  nestedInfo : List (String × (String × Nat))
  nestedKids : List (String × List String)
  processed : List String

/-- The inner loop of the nested-label branch (lines 311-339): walk the `/`-
separated parts, reusing an arena node when the accumulated path exists and
otherwise allocating it and pushing it onto the current parent's children
(`none` parent = `topLevel`). -/
def addNestedParts (counts : List (String × Nat)) (labelCount : Nat) :
    List String → String → Option String → TreeState → TreeState
  | [], _, _, st => st
  | part :: restParts, currentPath, parentRef, st =>
    let newPath := if currentPath = "" then part else currentPath ++ "/" ++ part
    match jmFind st.nestedInfo newPath with
    | some _ => addNestedParts counts labelCount restParts newPath (some newPath) st
    | none =>
      let cnt := if restParts.isEmpty then labelCount else jmGetD counts newPath 0
      let st2 : TreeState :=
        { st with
          nestedInfo := jmSet st.nestedInfo newPath (part, cnt)
          nestedKids := jmSet st.nestedKids newPath [] }
      let st3 : TreeState :=
        match parentRef with
        | none => { st2 with topOrder := st2.topOrder ++ [TopEntry.nestedRoot newPath] }
        | some pp =>
          { st2 with
            nestedKids := jmSet st2.nestedKids pp (jmGetD st2.nestedKids pp [] ++ [newPath]) }
      addNestedParts counts labelCount restParts newPath (some newPath) st3

/-- The body of the sorted-label loop (lines 292-350). -/
def processLabel (counts : List (String × Nat)) (st : TreeState) (label : String) :
    TreeState :=
  if st.processed.contains label then st
  else
    let st1 : TreeState := { st with processed := st.processed ++ [label] }
    let count := jmGetD counts label 0
    if jsStartsWith label "Category " then
      { st1 with
        catChildren := st1.catChildren ++ [PstFolder.mk label (jsDrop label 9) count []] }
    else if jsContainsChar label '/' then
      addNestedParts counts count (jsSplit label "/") "" none st1
    else
      { st1 with topOrder := st1.topOrder ++ [TopEntry.flat (PstFolder.mk label label count [])] }

/-- Materialise an arena node: its recorded name and count, and its recorded
children in creation order. `fuel` bounds the nesting depth; every child path
is strictly longer than its parent's, so `nestedInfo.length + 1` is enough. -/
def buildNested (info : List (String × (String × Nat))) (kids : List (String × List String)) :
    Nat → String → PstFolder
  | 0, path => PstFolder.mk path (jmGetD info path (path, 0)).1 (jmGetD info path (path, 0)).2 []
  | fuel + 1, path =>
    PstFolder.mk path (jmGetD info path (path, 0)).1 (jmGetD info path (path, 0)).2
      ((jmGetD kids path []).map (buildNested info kids fuel))

/-- Materialise a `topLevel` entry. -/
def topEntryNode (info : List (String × (String × Nat))) (kids : List (String × List String))
    (fuel : Nat) : TopEntry → PstFolder
  | .flat f => f
  | .nestedRoot p => buildNested info kids fuel p

/-- The two maps after the `"All Mail"` fix-up (lines 244-276). -/
def fmapsOf (midx : List MessageIndex) :
    List (String × Nat) × List (String × List Nat) :=
  addAllMail midx (collectLabels midx).1 (collectLabels midx).2

/-- `sortedLabels` (lines 285-290). -/
def sortedLabelsOf (midx : List MessageIndex) : List String :=
  stableSort labelLe (jmKeys (fmapsOf midx).1)

/-- The state after the label loop of lines 292-350. -/
def treeStateOf (midx : List MessageIndex) : TreeState :=
  (sortedLabelsOf midx).foldl (processLabel (fmapsOf midx).1)
    { topOrder := [], catChildren := [], nestedInfo := [], nestedKids := [], processed := [] }

/-- The final `topLevel` array (lines 352-360): materialised entries, plus the
synthetic `Categories` parent when any category label occurred. -/
def topLevelOf (midx : List MessageIndex) : List PstFolder :=
  if (treeStateOf midx).catChildren.isEmpty then
    (treeStateOf midx).topOrder.map
      (topEntryNode (treeStateOf midx).nestedInfo (treeStateOf midx).nestedKids
        ((treeStateOf midx).nestedInfo.length + 1))
  else
    (treeStateOf midx).topOrder.map
      (topEntryNode (treeStateOf midx).nestedInfo (treeStateOf midx).nestedKids
        ((treeStateOf midx).nestedInfo.length + 1))
      ++ [PstFolder.mk "__categories__" "Categories" 0 (treeStateOf midx).catChildren]

/-- `buildFolderTree` (lines 240-363): the folder forest and the
`folderMessageMap`. -/
def buildFolderTree (midx : List MessageIndex) :
    List PstFolder × List (String × List Nat) :=
  (topLevelOf midx, (fmapsOf midx).2)

/-- Index with a flat label `"Work"` and a nested label `"Work/Projects"`. -/
def c3cexIndex : List MessageIndex := [⟨0, 1, ["Work"]⟩, ⟨0, 1, ["Work/Projects"]⟩]

/-- The 3-message scenario index: one message labeled `"Inbox"`, one labeled
`"Inbox,Important"`, one unlabeled. -/
def c6Index : List MessageIndex :=
  [⟨0, 1, ["Inbox"]⟩, ⟨0, 1, ["Inbox", "Important"]⟩, ⟨0, 1, []⟩]

-- ─────── Label extraction (`extractGmailLabels`, lines 177-211) ───────

/-- The quote-aware comma split of `extractGmailLabels` (lines 190-210):
`labels` holds the fields emitted so far, `current` the field being built,
`inQuote` the double-quote state; a comma splits only outside quotes; fields
are trimmed and empty ones dropped. -/
def splitLabelsGo (labels : List (List Char)) (current : List Char) (inQuote : Bool) :
    List Char → List (List Char)
  | [] =>
    let lastTrimmed := jsTrimChars current
    if lastTrimmed.isEmpty then labels else labels ++ [lastTrimmed]
  | ch :: rest =>
    if ch = Char.ofNat 34 then splitLabelsGo labels current (!inQuote) rest
    else if ch = ',' ∧ inQuote = false then
      (let trimmed := jsTrimChars current
       splitLabelsGo (if trimmed.isEmpty then labels else labels ++ [trimmed]) [] inQuote rest)
    else splitLabelsGo labels (current ++ [ch]) inQuote rest

/-- Lines 190-210 applied to a whole header value. -/
def parseLabelList (rawValue : String) : List String :=
  (splitLabelsGo [] [] false rawValue.data).map String.mk

/-- Remove one trailing carriage return (the `\r` swallowed by `\r?\n`). -/
def stripCR (l : List Char) : List Char :=
  if l.getLast? = some (Char.ofNat 13) then l.dropLast else l

/-- Lower-cased header name for the case-insensitive match of line 184. -/
def gmailHeaderName : List Char := "x-gmail-labels:".data

/-- Find the first line starting (case-insensitively) with `X-Gmail-Labels:`;
return it with the following lines. Models the `/^X-Gmail-Labels:.../mi`
anchor of line 184 line-by-line. -/
def findHeaderLine : List (List Char) → Option (List Char × List (List Char))
  | [] => none
  | l :: rest =>
    if gmailHeaderName.isPrefixOf (l.map Char.toLower) then some (l, rest)
    else findHeaderLine rest

/-- Is this a folded continuation line (`[ \t]+...`, line 184)? -/
def isContinuation (l : List Char) : Bool :=
  l.head? = some ' ' || l.head? = some (Char.ofNat 9)

/-- `extractGmailLabels` (lines 182-211): locate the header, join folded
continuation lines with single spaces (the `replace(/\r?\n\s+/g, ' ')` of
line 187), trim, and run the quote-aware comma split. The multi-line regex is
modelled line-based. -/
def extractGmailLabels (headerStr : String) : List String :=
  let lines := jsSplitAux [Char.ofNat 10] (headerStr.data.length + 1) [] headerStr.data
  match findHeaderLine lines with
  | none => []
  | some (l, rest) =>
    let value0 := stripCR ((l.drop gmailHeaderName.length).dropWhile jsIsSpace)
    let conts := rest.takeWhile isContinuation
    let joined := conts.foldl
      (fun acc cline => acc ++ ' ' :: ((stripCR cline).dropWhile jsIsSpace)) value0
    let rawValue := jsTrimChars joined
    if rawValue.isEmpty then []
    else (splitLabelsGo [] [] false rawValue).map String.mk

-- ───────────── Session cache (`MboxSession`, lines 31-44, 576-762) ─────────────

/-- Summary fields for one message, as produced by the loading block of
`ensureFolderSummariesLoaded` (lines 609-635). -/
structure SummaryInfo where
  subject : String
  senderName : String
  senderEmail : String
  date : String
  preview : String
  hasAttachments : Bool
deriving DecidableEq, Inhabited

/-- `EmailSummary` (the cached summary of lines 637-648; the type-level
`_parsed` marker of `CachedSummary` is omitted). -/
structure EmailSummary where
  id : String
  folderId : String
  subject : String
  senderName : String
  senderEmail : String
  receivedDate : String
  isRead : Bool
  hasAttachments : Bool
  preview : String
deriving DecidableEq, Inhabited

/-- One attachment of a fully parsed message (lines 57-62). -/
structure Attachment where
  filename : String
  size : Nat
  mimeType : String
  content : List Nat
deriving DecidableEq, Inhabited

/-- `ParsedEmail` (lines 46-63). -/
structure ParsedEmail where
  subject : String
  senderName : String
  senderEmail : String
  toRecipients : String
  ccRecipients : String
  bccRecipients : String
  date : String
  bodyText : String
  bodyHtml : String
  isRead : Bool
  attachments : List Attachment
deriving DecidableEq, Inhabited

/-- Attachment metadata of a detail view (lines 728-733). -/
structure AttachmentInfo where
  index : Nat
  filename : String
  size : Nat
  mimeType : String
deriving DecidableEq, Inhabited

/-- `EmailDetail` as composed by `getMboxMessageDetail` (lines 713-734). -/
structure EmailDetail where
  id : String
  folderId : String
  subject : String
  senderName : String
  senderEmail : String
  receivedDate : String
  isRead : Bool
  hasAttachments : Bool
  preview : String
  toRecipients : String
  ccRecipients : String
  bccRecipients : String
  bodyText : String
  bodyHtml : String
  attachments : List AttachmentInfo
deriving DecidableEq, Inhabited

/-- `replace(/\r?\n/g, ' ')`. -/
def replaceNewlines : List Char → List Char
  | [] => []
  | [c] => if c = Char.ofNat 10 then [' '] else [c]
  | c :: c2 :: rest =>
    if c = Char.ofNat 13 ∧ c2 = Char.ofNat 10 then ' ' :: replaceNewlines rest
    else if c = Char.ofNat 10 then ' ' :: replaceNewlines (c2 :: rest)
    else c :: replaceNewlines (c2 :: rest)

/-- `.slice(0, 200).replace(/\r?\n/g, ' ')` (lines 624 and 722). -/
def previewOf (bodyText : String) : String :=
  String.mk (replaceNewlines (bodyText.data.take 200))

/-- `MboxSession` (lines 31-44). File access and the external `postal-mime`
decoder are modelled by three pure functions of the message ordinal (the file
is immutable and the decoder deterministic): `parseFull` stands for
`readRawMessage` + `parseRawMessage` on the full byte range (lines 700-701,
749-750; decode errors on the full message are outside this model);
`parseSummary` is the postal-mime attempt on the 16 KiB prefix of lines
602-625, already reduced to the summary fields the `try` block assigns
(`none` = the decoder throws); `fallbackInfo` is `parseHeadersOnly` on the
same prefix (lines 627-635). -/
structure MboxSession where
  messageIndex : List MessageIndex
  folderMessageMap : List (String × List Nat)
  summaryCache : List (Nat × EmailSummary)
  detailCache : List (Nat × ParsedEmail)
  folders : List PstFolder
  folderLoadedUpTo : List (String × Nat)
  parseFull : Nat → ParsedEmail
  parseSummary : Nat → Option SummaryInfo
  fallbackInfo : Nat → SummaryInfo

/-- The `fi` loop of `ensureFolderSummariesLoaded` (lines 593-651) over the
remaining folder positions, threading the summary cache and counting how many
messages were actually parsed (a cache hit at line 595 skips the work). -/
def loadSummaries (s : MboxSession) (folderId : String) (folderIndices : List Nat) :
    List Nat → List (Nat × EmailSummary) → Nat → List (Nat × EmailSummary) × Nat
  | [], cache, n => (cache, n)
  | fi :: rest, cache, n =>
    let globalIdx := folderIndices.getD fi 0
    if jmHas cache globalIdx then loadSummaries s folderId folderIndices rest cache n
    else
      let info :=
        match s.parseSummary globalIdx with
        | some i => i
        | none => s.fallbackInfo globalIdx
      let summary : EmailSummary :=
        { id := folderId ++ "::" ++ natToStr globalIdx
          folderId := folderId
          subject := info.subject
          senderName := info.senderName
          senderEmail := info.senderEmail
          receivedDate := info.date
          isRead := true
          hasAttachments := info.hasAttachments
          preview := info.preview }
      loadSummaries s folderId folderIndices rest (jmSet cache globalIdx summary) (n + 1)

/-- `ensureFolderSummariesLoaded` (lines 580-654), also returning the number
of messages parsed (the test-observable parse counter). -/
def ensureFolderSummariesLoaded (s : MboxSession) (folderId : String) (needed : Nat) :
    MboxSession × Nat :=
  match jmFind s.folderMessageMap folderId with
  | none => (s, 0)
  | some folderIndices =>
    let effectiveNeeded := min needed folderIndices.length
    let currentLoaded := jmGetD s.folderLoadedUpTo folderId 0
    if effectiveNeeded ≤ currentLoaded then (s, 0)
    else
      let cn := loadSummaries s folderId folderIndices
        (List.range' currentLoaded (effectiveNeeded - currentLoaded)) s.summaryCache 0
      ({ s with
          summaryCache := cn.1
          folderLoadedUpTo := jmSet s.folderLoadedUpTo folderId effectiveNeeded }, cn.2)

/-- `getMboxMessages` (lines 656-684), also returning the updated session and
the parse counter. -/
def getMboxMessages (s : MboxSession) (folderId : String) (offset limit : Nat) :
    (List EmailSummary × Nat) × MboxSession × Nat :=
  match jmFind s.folderMessageMap folderId with
  | none => (([], 0), s, 0)
  | some folderIndices =>
    let total := folderIndices.length
    let needed := min (offset + limit) total
    let sn := ensureFolderSummariesLoaded s folderId needed
    let msgs := (List.range' offset (min (offset + limit) total - offset)).filterMap
      (fun fi =>
        let globalIdx := folderIndices.getD fi 0
        match jmFind sn.1.summaryCache globalIdx with
        | some cached =>
          some { cached with
                  folderId := folderId
                  id := folderId ++ "::" ++ natToStr globalIdx }
        | none => none)
    ((msgs, total), sn.1, sn.2)

/-- `detailCache.get(globalIdx)` where the decoded ordinal may be `NaN`
(`none`) or negative — neither ever hits, since keys are message ordinals. -/
def cacheFind (cache : List (Nat × ParsedEmail)) : Option Int → Option ParsedEmail
  | none => none
  | some k => if k < 0 then none else jmFind cache k.toNat

/-- The detail view composed at lines 713-734. -/
def mkDetail (messageId folderId : String) (parsed : ParsedEmail) : EmailDetail :=
  { id := messageId
    folderId := folderId
    subject := parsed.subject
    senderName := parsed.senderName
    senderEmail := parsed.senderEmail
    receivedDate := parsed.date
    isRead := parsed.isRead
    hasAttachments := decide (0 < parsed.attachments.length)
    preview := previewOf parsed.bodyText
    toRecipients := parsed.toRecipients
    ccRecipients := parsed.ccRecipients
    bccRecipients := parsed.bccRecipients
    bodyText := parsed.bodyText
    bodyHtml := parsed.bodyHtml
    attachments := parsed.attachments.enum.map
      (fun p => { index := p.1, filename := p.2.filename, size := p.2.size,
                  mimeType := p.2.mimeType }) }

/-- `getMboxMessageDetail` (lines 686-735): id decode via `split('::')` and
`parseInt`, detail-cache lookup, on a miss the `messageIndex[globalIdx]`
existence check (a failure throws `Message not found`), then parse, cache
insert, and the size-bound eviction of lines 704-710 (drop the
oldest-inserted entry when the size exceeds 200). The second component is the
session state after the call (errors are thrown before any mutation). -/
def getMboxMessageDetail (s : MboxSession) (messageId : String) :
    Except String EmailDetail × MboxSession :=
  let parts := jsSplit messageId "::"
  let folderId := parts.headD ""
  let gi := jsParseInt (parts.getD 1 "")
  match cacheFind s.detailCache gi with
  | some parsed => (Except.ok (mkDetail messageId folderId parsed), s)
  | none =>
    match gi with
    | some k =>
      if 0 ≤ k ∧ k.toNat < s.messageIndex.length then
        let parsed := s.parseFull k.toNat
        let cache2 := jmSet s.detailCache k.toNat parsed
        let cache3 := if 200 < cache2.length then cache2.tail else cache2
        (Except.ok (mkDetail messageId folderId parsed), { s with detailCache := cache3 })
      else (Except.error ("Message not found: " ++ messageId), s)
    | none => (Except.error ("Message not found: " ++ messageId), s)

/-- `getMboxAttachmentBuffer` (lines 737-762): same id decode and cache fill
as the detail path but with no size bound on the insert; the attachment index
is then checked on the parsed message. The cache insert persists even when
the attachment lookup fails. -/
def getMboxAttachmentBuffer (s : MboxSession) (messageId : String)
    (attachmentIndex : Nat) :
    Except String (List Nat × String × String) × MboxSession :=
  let gi := jsParseInt ((jsSplit messageId "::").getD 1 "")
  match cacheFind s.detailCache gi with
  | some parsed =>
    match parsed.attachments.get? attachmentIndex with
    | some att => (Except.ok (att.content, att.filename, att.mimeType), s)
    | none => (Except.error ("Attachment not found: " ++ natToStr attachmentIndex), s)
  | none =>
    match gi with
    | some k =>
      if 0 ≤ k ∧ k.toNat < s.messageIndex.length then
        let parsed := s.parseFull k.toNat
        let s2 : MboxSession := { s with detailCache := jmSet s.detailCache k.toNat parsed }
        match parsed.attachments.get? attachmentIndex with
        | some att => (Except.ok (att.content, att.filename, att.mimeType), s2)
        | none => (Except.error ("Attachment not found: " ++ natToStr attachmentIndex), s2)
      else (Except.error ("Message not found: " ++ messageId), s)
    | none => (Except.error ("Message not found: " ++ messageId), s)

/-- Did the call succeed (no thrown error)? -/
def exOk : Except ε α → Bool
  | .ok _ => true
  | .error _ => false

/-- The parsed message a detail/attachment call for ordinal `n` works with:
the cached parse if present, a fresh full parse otherwise. -/
def detailParsedAt (s : MboxSession) (n : Nat) : ParsedEmail :=
  (jmFind s.detailCache n).getD (s.parseFull n)

/-- The detail-cache-touching operations of the session API. -/
inductive SessionOp where
  | detail (messageId : String)
  | attach (messageId : String) (attachmentIndex : Nat)

/-- State transition of one operation (results discarded). -/
def applyOp (s : MboxSession) : SessionOp → MboxSession
  | .detail m => (getMboxMessageDetail s m).2
  | .attach m i => (getMboxAttachmentBuffer s m i).2

/-- Run a sequence of operations against a session. -/
def runOps (s : MboxSession) (ops : List SessionOp) : MboxSession :=
  ops.foldl applyOp s

/-- A session over `n` one-byte messages in a single folder `"f"` whose
decoder yields default (empty) fields. -/
def sampleSession (n : Nat) : MboxSession :=
  { messageIndex := (List.range n).map (fun _ => ⟨0, 1, []⟩)
    folderMessageMap := [("f", List.range n)]
    summaryCache := []
    detailCache := []
    folders := []
    folderLoadedUpTo := []
    parseFull := fun _ => default
    parseSummary := fun _ => some default
    fallbackInfo := fun _ => default }

/-- `sampleSession 201` with the detail cache already at its 200-entry
capacity (the state reached by 200 distinct `getMessageDetail` calls). -/
def c1fullSession : MboxSession :=
  { sampleSession 201 with
    detailCache := (List.range 200).map (fun i => (i, default)) }

/-- A one-message index whose message carries the duplicate label list
`A,A`. -/
def c5dupIndex : List MessageIndex := [⟨0, 1, ["A", "A"]⟩]

/-- The session state `openMboxFile` builds for `c5dupIndex`. -/
def c5dupSession : MboxSession :=
  { messageIndex := c5dupIndex
    folderMessageMap := (buildFolderTree c5dupIndex).2
    summaryCache := []
    detailCache := []
    folders := (buildFolderTree c5dupIndex).1
    folderLoadedUpTo := []
    parseFull := fun _ => default
    parseSummary := fun _ => some default
    fallbackInfo := fun _ => default }

-- ═════════════════════════════ THEOREMS ═════════════════════════════

theorem jmFind_set_self [DecidableEq K] (m : List (K × V)) (k : K) (v : V) :
    jmFind (jmSet m k v) k = some v := by
  induction m with
  | nil => simp [jmSet, jmFind]
  | cons hd t ih =>
    obtain ⟨k2, v2⟩ := hd
    by_cases h : k = k2
    · subst h; simp [jmSet, jmFind]
    · simp [jmSet, jmFind, h, ih]

theorem jmFind_set_other [DecidableEq K] (m : List (K × V)) (k k2 : K) (v : V)
    (h : k2 ≠ k) : jmFind (jmSet m k v) k2 = jmFind m k2 := by
  induction m with
  | nil => simp [jmSet, jmFind, h]
  | cons hd t ih =>
    obtain ⟨k3, v3⟩ := hd
    by_cases h2 : k = k3
    · subst h2
      simp [jmSet, jmFind, h]
    · by_cases h3 : k2 = k3 <;> simp [jmSet, jmFind, h2, h3, ih]

theorem jmKeys_set_mem [DecidableEq K] (m : List (K × V)) (k : K) (v : V)
    (h : k ∈ jmKeys m) : jmKeys (jmSet m k v) = jmKeys m := by
  induction m with
  | nil => simp [jmKeys] at h
  | cons hd t ih =>
    obtain ⟨k2, v2⟩ := hd
    by_cases h2 : k = k2
    · subst h2; simp [jmSet, jmKeys]
    · have h3 : k = k2 ∨ k ∈ jmKeys t := by simpa [jmKeys] using h
      have hmem : k ∈ jmKeys t := h3.resolve_left h2
      simp only [jmSet, if_neg h2, jmKeys, List.map_cons] at ih ⊢
      rw [ih hmem]

theorem jmKeys_set_notMem [DecidableEq K] (m : List (K × V)) (k : K) (v : V)
    (h : k ∉ jmKeys m) : jmKeys (jmSet m k v) = jmKeys m ++ [k] := by
  induction m with
  | nil => simp [jmSet, jmKeys]
  | cons hd t ih =>
    obtain ⟨k2, v2⟩ := hd
    have h2 : k ≠ k2 := by
      intro hk; exact h (by simp [jmKeys, hk])
    have ht : k ∉ jmKeys t := by
      intro hk
      refine h ?_
      have : k ∈ k2 :: jmKeys t := List.mem_cons_of_mem _ hk
      simpa [jmKeys] using this
    simp only [jmSet, if_neg h2, jmKeys, List.map_cons, List.cons_append] at ih ⊢
    rw [ih ht]

theorem jmFind_isSome_iff_mem_keys [DecidableEq K] (m : List (K × V)) (k : K) :
    (jmFind m k).isSome = true ↔ k ∈ jmKeys m := by
  induction m with
  | nil => simp [jmFind, jmKeys]
  | cons hd t ih =>
    obtain ⟨k2, v2⟩ := hd
    by_cases h : k = k2
    · subst h; simp [jmFind, jmKeys]
    · simp [jmFind, jmKeys, h, ih]

theorem jmKeys_nodup_set [DecidableEq K] (m : List (K × V)) (k : K) (v : V)
    (h : (jmKeys m).Nodup) : (jmKeys (jmSet m k v)).Nodup := by
  by_cases hk : k ∈ jmKeys m
  · rwa [jmKeys_set_mem m k v hk]
  · rw [jmKeys_set_notMem m k v hk]
    simpa [List.nodup_append] using ⟨h, hk⟩

-- ── chunk-size independence: supporting lemmas ──

theorem matchAtB_le {buf : List Nat} {p : Nat} (h : matchAtB buf p = true) :
    p + 6 ≤ buf.length := by
  have h2 : (buf.drop p).take 6 = mboxMarker := by simpa [matchAtB] using h
  have h3 := congrArg List.length h2
  simp only [List.length_take, List.length_drop, mboxMarker, List.length_cons,
    List.length_nil] at h3
  omega

theorem matchAtB_getElem {buf : List Nat} {p : Nat} (h : matchAtB buf p = true)
    (i : Nat) (hi : i < 6) : buf[p + i]? = mboxMarker[i]? := by
  have h2 : (buf.drop p).take 6 = mboxMarker := by simpa [matchAtB] using h
  have h3 := congrArg (fun l => l[i]?) h2
  simpa [List.getElem?_take, List.getElem?_drop, hi] using h3

theorem matchAtB_apart {buf : List Nat} {p : Nat} (h : matchAtB buf p = true)
    (j : Nat) (h1 : 1 ≤ j) (h5 : j ≤ 5) : matchAtB buf (p + j) = false := by
  by_contra hc
  have hc2 : matchAtB buf (p + j) = true := by
    cases hb : matchAtB buf (p + j)
    · exact absurd hb hc
    · rfl
  have e1 : buf[p + j]? = mboxMarker[0]? := by
    simpa using matchAtB_getElem hc2 0 (by omega)
  have e2 : buf[p + j]? = mboxMarker[j]? := matchAtB_getElem h j (by omega)
  rw [e2] at e1
  interval_cases j <;> simp [mboxMarker] at e1

theorem matchAtB_slice (file : List Nat) (off L i : Nat) :
    matchAtB ((file.drop off).take L) i
      = (decide (i + 6 ≤ L) && matchAtB file (off + i)) := by
  have hdrop : ((file.drop off).take L).drop i = (file.drop (off + i)).take (L - i) := by
    rw [List.drop_take, List.drop_drop]
  by_cases hi : i + 6 ≤ L
  · have htake : (((file.drop off).take L).drop i).take 6 = (file.drop (off + i)).take 6 := by
      rw [hdrop, List.take_take]
      congr 1
      omega
    simp [matchAtB, htake, hi]
  · have hlen : ((((file.drop off).take L).drop i).take 6).length < 6 := by
      simp only [List.length_take, List.length_drop]
      omega
    have hne : ((((file.drop off).take L).drop i).take 6 == mboxMarker) = false := by
      rw [beq_eq_false_iff_ne]
      intro he
      rw [he] at hlen
      simp [mboxMarker] at hlen
    simp [matchAtB, hne, hi]

theorem find_range'_none {q : Nat → Bool} {s n : Nat}
    (h : (List.range' s n).find? q = none) :
    ∀ p, s ≤ p → p < s + n → q p = false := by
  intro p hp1 hp2
  have := List.find?_eq_none.1 h p (List.mem_range'_1.2 ⟨hp1, hp2⟩)
  simpa using this

theorem find_range'_some {q : Nat → Bool} {s n a : Nat}
    (h : (List.range' s n).find? q = some a) :
    s ≤ a ∧ a < s + n ∧ q a = true ∧ ∀ p, s ≤ p → p < a → q p = false := by
  induction n generalizing s with
  | zero => simp at h
  | succ m ih =>
    rw [List.range'_succ] at h
    by_cases hq : q s
    · have ha : a = s := by
        rw [List.find?_cons_of_pos _ hq] at h
        simpa using h.symm
      subst ha
      exact ⟨Nat.le_refl _, by omega, hq, fun p hp1 hp2 => absurd hp1 (by omega)⟩
    · have hq2 : q s = false := by
        cases hb : q s
        · rfl
        · exact absurd hb hq
      rw [List.find?_cons_of_neg _ (by simp [hq2])] at h
      obtain ⟨ha1, ha2, ha3, ha4⟩ := ih h
      refine ⟨by omega, by omega, ha3, fun p hp1 hp2 => ?_⟩
      rcases Nat.eq_or_lt_of_le hp1 with he | hlt
      · exact he ▸ hq2
      · exact ha4 p hlt hp2

theorem findFrom_none {buf : List Nat} {s : Nat} (h : findFrom buf s = none) :
    ∀ p, s ≤ p → matchAtB buf p = false := by
  intro p hp
  by_cases hlt : p < buf.length
  · exact find_range'_none h p hp (by omega)
  · cases hm : matchAtB buf p
    · rfl
    · have := matchAtB_le hm
      omega

theorem findFrom_some {buf : List Nat} {s idx : Nat} (h : findFrom buf s = some idx) :
    s ≤ idx ∧ matchAtB buf idx = true ∧ ∀ p, s ≤ p → p < idx → matchAtB buf p = false := by
  obtain ⟨h1, _, h3, h4⟩ := find_range'_some h
  exact ⟨h1, h3, h4⟩

/-- Pulling the least satisfying element out of a lower-bounded range filter. -/
theorem filter_range_pull {n t : Nat} {A : Nat → Bool} (ht : t < n) (hA : A t = true) :
    (List.range n).filter (fun p => decide (t ≤ p) && A p)
      = t :: (List.range n).filter (fun p => decide (t + 1 ≤ p) && A p) := by
  induction n with
  | zero => omega
  | succ m ih =>
    rw [List.range_succ, List.filter_append, List.filter_append]
    rcases Nat.lt_or_ge t m with hlt | hge
    · rw [ih hlt]
      simp only [List.filter_cons, List.filter_nil]
      have e1 : (decide (t ≤ m) && A m) = A m := by
        simp [Nat.le_of_lt hlt]
      have e2 : (decide (t + 1 ≤ m) && A m) = A m := by
        simp [Nat.succ_le_of_lt hlt]
      rw [e1, e2, List.cons_append]
    · have he : t = m := by omega
      subst he
      have hnil1 : (List.range t).filter (fun p => decide (t ≤ p) && A p) = [] := by
        rw [List.filter_eq_nil_iff]
        intro a ha
        have := List.mem_range.1 ha
        simp [Nat.not_le.2 this]
      have hnil2 : (List.range t).filter (fun p => decide (t + 1 ≤ p) && A p) = [] := by
        rw [List.filter_eq_nil_iff]
        intro a ha
        have := List.mem_range.1 ha
        simp [show ¬t + 1 ≤ a by omega]
      rw [hnil1, hnil2]
      simp [hA]

/-- A range filter whose predicate confines matches to `[off, off + L)` can be
computed over that window alone. -/
theorem filter_range_window {q : Nat → Bool} {len off L : Nat} (h1 : off + L ≤ len)
    (h2 : ∀ p, q p = true → off ≤ p ∧ p < off + L) :
    (List.range len).filter q = (List.range' off L).filter q := by
  have hsplit : List.range len
      = List.range' 0 off ++ List.range' off L ++ List.range' (off + L) (len - off - L) := by
    rw [List.range_eq_range']
    have e1 : List.range' 0 off ++ List.range' off L = List.range' 0 (off + L) := by
      have := List.range'_append 0 off L 1
      simpa [Nat.add_comm] using this
    have e2 : List.range' 0 (off + L) ++ List.range' (off + L) (len - off - L)
        = List.range' 0 len := by
      have := List.range'_append 0 (off + L) (len - off - L) 1
      simp only [Nat.one_mul, Nat.zero_add] at this
      rw [this]
      congr 1
      omega
    rw [List.append_assoc, ← e2, ← e1, List.append_assoc]
  rw [hsplit, List.filter_append, List.filter_append]
  have hnil1 : (List.range' 0 off).filter q = [] := by
    rw [List.filter_eq_nil_iff]
    intro a ha
    have := List.mem_range'_1.1 ha
    intro hq
    have := (h2 a hq).1
    omega
  have hnil3 : (List.range' (off + L) (len - off - L)).filter q = [] := by
    rw [List.filter_eq_nil_iff]
    intro a ha
    have := List.mem_range'_1.1 ha
    intro hq
    have := (h2 a hq).2
    omega
  rw [hnil1, hnil3]
  simp

/-- Splitting a range filter at the chunk frontier `hi`. -/
theorem filter_range_split {n u : Nat} {A g : Nat → Bool}
    (hlo : ∀ p, u < p + 6 → g p = true) :
    (List.range n).filter (fun p => g p && A p)
      = (List.range n).filter (fun p => g p && (decide (p + 6 ≤ u) && A p))
        ++ (List.range n).filter (fun p => decide (u < p + 6) && A p) := by
  induction n with
  | zero => simp
  | succ m ih =>
    by_cases hcase : u < m + 6
    · rw [List.range_succ, List.filter_append, List.filter_append, List.filter_append, ih]
      simp only [List.filter_cons, List.filter_nil]
      have e1 : (g m && (decide (m + 6 ≤ u) && A m)) = false := by
        simp [Nat.not_le.2 hcase]
      have e2 : (decide (u < m + 6) && A m) = A m := by simp [hcase]
      have e3 : (g m && A m) = A m := by simp [hlo m hcase]
      rw [e1, e2, e3]
      cases hAm : A m <;> simp
    · have hge : m + 6 ≤ u := Nat.not_lt.1 hcase
      have hcong : (List.range (m + 1)).filter (fun p => g p && (decide (p + 6 ≤ u) && A p))
          = (List.range (m + 1)).filter (fun p => g p && A p) := by
        apply List.filter_congr
        intro p hp
        have hplt := List.mem_range.1 hp
        simp [show p + 6 ≤ u by omega]
      have hnil : (List.range (m + 1)).filter (fun p => decide (u < p + 6) && A p) = [] := by
        rw [List.filter_eq_nil_iff]
        intro a ha
        have := List.mem_range.1 ha
        simp [Nat.not_lt.2 (show a + 6 ≤ u by omega)]
      rw [hcong, hnil, List.append_nil]

theorem scanFromF_spec (buf : List Nat) :
    ∀ fuel s, buf.length + 1 ≤ s + 6 * fuel →
      scanFromF buf fuel s
        = (List.range buf.length).filter (fun p => decide (s ≤ p) && matchAtB buf p) := by
  intro fuel
  induction fuel with
  | zero =>
    intro s hs
    rw [scanFromF, List.filter_eq_nil_iff.2]
    intro a ha
    have := List.mem_range.1 ha
    simp [show ¬s ≤ a by omega]
  | succ fuel ih =>
    intro s hs
    rw [scanFromF]
    by_cases h6 : s + 6 ≤ buf.length
    · rw [if_pos h6]
      cases hf : findFrom buf s with
      | none =>
        rw [List.filter_eq_nil_iff.2]
        intro a ha
        by_cases hsa : s ≤ a
        · simp [findFrom_none hf a hsa]
        · simp [hsa]
      | some idx =>
        obtain ⟨hsi, hmi, hmin⟩ := findFrom_some hf
        have hidx6 : idx + 6 ≤ buf.length := matchAtB_le hmi
        have step1 : (List.range buf.length).filter (fun p => decide (s ≤ p) && matchAtB buf p)
            = (List.range buf.length).filter (fun p => decide (idx ≤ p) && matchAtB buf p) := by
          apply List.filter_congr
          intro p _
          cases hA : matchAtB buf p
          · simp
          · by_cases hp1 : s ≤ p
            · by_cases hp2 : idx ≤ p
              · simp [hp1, hp2]
              · rw [hmin p hp1 (by omega)] at hA
                simp at hA
            · simp [hp1, show ¬idx ≤ p by omega]
        have step2 := filter_range_pull (n := buf.length) (by omega : idx < buf.length) hmi
        have step3 : (List.range buf.length).filter (fun p => decide (idx + 1 ≤ p) && matchAtB buf p)
            = (List.range buf.length).filter (fun p => decide (idx + 6 ≤ p) && matchAtB buf p) := by
          apply List.filter_congr
          intro p _
          cases hA : matchAtB buf p
          · simp
          · by_cases hp1 : idx + 1 ≤ p
            · by_cases hp2 : idx + 6 ≤ p
              · simp [hp1, hp2]
              · have hap := matchAtB_apart hmi (p - idx) (by omega) (by omega)
                rw [show idx + (p - idx) = p by omega] at hap
                rw [hap] at hA
                simp at hA
            · simp [hp1, show ¬idx + 6 ≤ p by omega]
        rw [step1, step2, step3, ← ih (idx + 6) (by omega)]
    · rw [if_neg h6, List.filter_eq_nil_iff.2]
      intro a ha
      cases hA : matchAtB buf a
      · simp
      · have := matchAtB_le hA
        simp [show ¬s ≤ a by omega]

theorem scanFrom_spec (buf : List Nat) (s : Nat) :
    scanFrom buf s
      = (List.range buf.length).filter (fun p => decide (s ≤ p) && matchAtB buf p) :=
  scanFromF_spec buf (buf.length + 1) s (by omega)

theorem scanChunksF_stop (file : List Nat) (c fuel filePos : Nat) (ov : List Nat)
    (h : file.length ≤ filePos) : scanChunksF file c fuel filePos ov = [] := by
  cases fuel with
  | zero => rw [scanChunksF]
  | succ m =>
    rw [scanChunksF, if_neg (by omega)]

/-- One-step unfolding of the chunk loop (the `let`s of the body inlined). -/
theorem scanChunksF_step (file : List Nat) (c fuel filePos : Nat) (ov : List Nat)
    (h : filePos < file.length) :
    scanChunksF file c (fuel + 1) filePos ov
      = (if filePos = 0 ∧ 5 ≤ (ov ++ (file.drop filePos).take (min c (file.length - filePos))).length ∧
            (ov ++ (file.drop filePos).take (min c (file.length - filePos))).take 5 = fromWord
         then [0] else [])
        ++ (scanFrom (ov ++ (file.drop filePos).take (min c (file.length - filePos)))
              (if filePos = 0 ∧ ov = [] then 1 else 0)).map
            (fun idx => filePos - ov.length + idx + 1)
        ++ scanChunksF file c fuel (filePos + min c (file.length - filePos))
            (((file.drop filePos).take (min c (file.length - filePos))).drop
              (min c (file.length - filePos) - min 5 (min c (file.length - filePos)))) := by
  rw [scanChunksF, if_pos h]

/-- Chunk-loop invariant: from any aligned interior position with the correct
five carried-over bytes, the loop emits exactly the marker positions not yet
emitted, shifted by one. -/
theorem scanChunksF_spec (file : List Nat) (c : Nat) (h6 : 6 ≤ c) :
    ∀ fuel filePos, 6 ≤ filePos → filePos ≤ file.length → file.length ≤ filePos + fuel →
      scanChunksF file c fuel filePos ((file.drop (filePos - 5)).take 5)
        = ((List.range file.length).filter
            (fun p => decide (filePos < p + 6) && matchAtB file p)).map (fun p => p + 1) := by
  intro fuel
  induction fuel with
  | zero =>
    intro filePos h1 h2 h3
    rw [scanChunksF_stop file c 0 filePos _ (by omega)]
    rw [List.filter_eq_nil_iff.2, List.map_nil]
    intro a _
    cases hA : matchAtB file a
    · simp
    · have := matchAtB_le hA
      simp [show ¬filePos < a + 6 by omega]
  | succ fuel ih =>
    intro filePos h1 h2 h3
    by_cases hlt : filePos < file.length
    · rw [scanChunksF_step file c fuel filePos _ hlt]
      set b := min c (file.length - filePos) with hbdef
      have hb1 : 1 ≤ b := by omega
      have hble : filePos + b ≤ file.length := by omega
      set off := filePos - 5 with hoffdef
      have hoff5 : off + 5 = filePos := by omega
      have hovlen : ((file.drop off).take 5).length = 5 := by
        simp only [List.length_take, List.length_drop]
        omega
      have hscan : (file.drop off).take 5 ++ (file.drop filePos).take b
          = (file.drop off).take (5 + b) := by
        rw [List.take_add]
        congr 2
        rw [List.drop_drop, hoff5]
      have hscanlen : ((file.drop off).take (5 + b)).length = 5 + b := by
        simp only [List.length_take, List.length_drop]
        omega
      have hstart : ¬(filePos = 0 ∧ 5 ≤ ((file.drop off).take 5 ++ (file.drop filePos).take b).length ∧
          ((file.drop off).take 5 ++ (file.drop filePos).take b).take 5 = fromWord) := by
        rintro ⟨he, -⟩
        omega
      have hsearch : ¬(filePos = 0 ∧ (file.drop off).take 5 = ([] : List Nat)) := by
        rintro ⟨he, -⟩
        omega
      rw [if_neg hstart, if_neg hsearch, List.nil_append]
      -- the `found` block
      have hfound : (scanFrom ((file.drop off).take 5 ++ (file.drop filePos).take b) 0).map
            (fun idx => filePos - ((file.drop off).take 5).length + idx + 1)
          = ((List.range file.length).filter
              (fun p => decide (filePos < p + 6) && (decide (p + 6 ≤ filePos + b) && matchAtB file p))).map
            (fun p => p + 1) := by
        rw [hscan, hovlen, scanFrom_spec, hscanlen]
        have e1 : (List.range (5 + b)).filter
              (fun i => decide (0 ≤ i) && matchAtB ((file.drop off).take (5 + b)) i)
            = (List.range (5 + b)).filter
              (fun i => decide (i + 6 ≤ 5 + b) && matchAtB file (off + i)) := by
          apply List.filter_congr
          intro i _
          rw [matchAtB_slice]
          simp
        rw [e1]
        have e2 : (List.range (5 + b)).filter (fun i => decide (i + 6 ≤ 5 + b) && matchAtB file (off + i))
            = (List.range (5 + b)).filter
              ((fun p => decide (filePos < p + 6) && (decide (p + 6 ≤ filePos + b) && matchAtB file p)) ∘
                (fun i => off + i)) := by
          apply List.filter_congr
          intro i _
          simp only [Function.comp]
          have d1 : decide (i + 6 ≤ 5 + b) = decide (off + i + 6 ≤ filePos + b) :=
            decide_eq_decide.2 (by omega)
          have d2 : decide (filePos < off + i + 6) = true := by
            simp only [decide_eq_true_eq]
            omega
          rw [d1, d2, Bool.true_and]
        have e3 : (List.range' off (5 + b)).filter
              (fun p => decide (filePos < p + 6) && (decide (p + 6 ≤ filePos + b) && matchAtB file p))
            = (List.range file.length).filter
              (fun p => decide (filePos < p + 6) && (decide (p + 6 ≤ filePos + b) && matchAtB file p)) := by
          symm
          apply filter_range_window (by omega)
          intro p hq
          simp only [Bool.and_eq_true, decide_eq_true_eq] at hq
          omega
        have eG : (fun idx => filePos - 5 + idx + 1)
            = ((fun p => p + 1) ∘ fun i => off + i) := by
          funext idx
          simp only [Function.comp_apply]
        rw [e2, eG, ← List.map_map, ← List.filter_map, ← List.range'_eq_map_range, e3]
      rw [hfound]
      -- the recursive block
      by_cases hend : file.length ≤ filePos + b
      · have hstop : scanChunksF file c fuel (filePos + b)
            (((file.drop filePos).take b).drop (b - min 5 b)) = [] :=
          scanChunksF_stop _ _ _ _ _ hend
        rw [hstop, List.append_nil]
        have hsplit := filter_range_split (n := file.length) (u := filePos + b)
          (A := fun p => matchAtB file p) (g := fun p => decide (filePos < p + 6))
          (by intro p hp; simp only [decide_eq_true_eq]; omega)
        have hnil : (List.range file.length).filter
            (fun p => decide (filePos + b < p + 6) && matchAtB file p) = [] := by
          rw [List.filter_eq_nil_iff]
          intro a _
          cases hA : matchAtB file a
          · simp
          · have := matchAtB_le hA
            simp [show ¬filePos + b < a + 6 by omega]
        rw [hnil, List.append_nil] at hsplit
        rw [← hsplit]
      · have hbc : b = c := by omega
        have hb5 : 5 ≤ b := by omega
        have hnewov : ((file.drop filePos).take b).drop (b - min 5 b)
            = (file.drop (filePos + b - 5)).take 5 := by
          rw [List.drop_take, List.drop_drop]
          congr 1
          · omega
          · congr 1
            omega
        rw [hnewov]
        have hrec := ih (filePos + b) (by omega) (by omega) (by omega)
        rw [show filePos + b - 5 = (filePos + b) - 5 from rfl] at hnewov
        rw [hrec]
        rw [← List.map_append]
        congr 1
        have hsplit := filter_range_split (n := file.length) (u := filePos + b)
          (A := fun p => matchAtB file p) (g := fun p => decide (filePos < p + 6))
          (by intro p hp; simp only [decide_eq_true_eq]; omega)
        rw [← hsplit]
    · have hfp : filePos = file.length := by omega
      rw [scanChunksF_stop file c _ filePos _ (by omega)]
      rw [List.filter_eq_nil_iff.2, List.map_nil]
      intro a _
      cases hA : matchAtB file a
      · simp
      · have := matchAtB_le hA
        simp [show ¬filePos < a + 6 by omega]

/-- The file-start `"From "` test fails on a file shorter than five bytes. -/
theorem specHead_short (file : List Nat) (h : file.length < 5) :
    (if file.take 5 = fromWord then [0] else ([] : List Nat)) = [] := by
  rw [if_neg]
  intro he
  have := congrArg List.length he
  simp only [List.length_take, fromWord, List.length_cons, List.length_nil] at this
  omega

/-- With a chunk size of at least the marker length, the chunked scan computes
the reference offset list. -/
theorem envelopeOffsets_of_six_le (file : List Nat) (c : Nat) (h6 : 6 ≤ c) :
    envelopeOffsets c file = envelopeOffsetsSpec file := by
  rcases Nat.eq_zero_or_pos file.length with h0 | hpos
  · rw [envelopeOffsets, scanChunksF_stop file c _ 0 [] (by omega), envelopeOffsetsSpec,
      specHead_short file (by omega), h0]
    simp
  · rw [envelopeOffsets,
      scanChunksF_step file c file.length 0 [] (by omega)]
    simp only [Nat.sub_zero, List.drop_zero, List.nil_append, List.length_nil, Nat.zero_add,
      List.length_take, true_and, and_self, if_true]
    set b := min c file.length with hbdef
    have hb1 : 1 ≤ b := by omega
    have hble : b ≤ file.length := by omega
    have hmb : min b file.length = b := by omega
    rw [hmb]
    have hfound : (scanFrom (file.take b) 1).map (fun idx => idx + 1)
        = ((List.range file.length).filter
            (fun p => decide (1 ≤ p) && (decide (p + 6 ≤ b) && matchAtB file p))).map
          (fun p => p + 1) := by
      rw [scanFrom_spec]
      have htklen : (file.take b).length = b := by
        simp only [List.length_take]
        omega
      rw [htklen]
      have e1 : (List.range b).filter (fun i => decide (1 ≤ i) && matchAtB (file.take b) i)
          = (List.range b).filter
            (fun p => decide (1 ≤ p) && (decide (p + 6 ≤ b) && matchAtB file p)) := by
        apply List.filter_congr
        intro i _
        have hsl := matchAtB_slice file 0 b i
        rw [List.drop_zero, Nat.zero_add] at hsl
        rw [hsl]
      have e2 : (List.range' 0 b).filter
            (fun p => decide (1 ≤ p) && (decide (p + 6 ≤ b) && matchAtB file p))
          = (List.range file.length).filter
            (fun p => decide (1 ≤ p) && (decide (p + 6 ≤ b) && matchAtB file p)) := by
        symm
        apply filter_range_window (by omega)
        intro p hq
        simp only [Bool.and_eq_true, decide_eq_true_eq] at hq
        omega
      rw [← List.range_eq_range'] at e2
      rw [e1, e2]
    rw [hfound]
    by_cases hend : file.length ≤ b
    · rw [scanChunksF_stop file c _ _ _ hend, List.append_nil]
      have hcong : (List.range file.length).filter
            (fun p => decide (1 ≤ p) && (decide (p + 6 ≤ b) && matchAtB file p))
          = (List.range file.length).filter (fun p => decide (1 ≤ p) && matchAtB file p) := by
        apply List.filter_congr
        intro p _
        cases hA : matchAtB file p
        · simp
        · have := matchAtB_le hA
          simp [show p + 6 ≤ b by omega]
      rw [hcong, envelopeOffsetsSpec]
      congr 1
      rcases Nat.lt_or_ge file.length 5 with hs | hs
      · rw [specHead_short file hs, if_neg]
        rintro ⟨h5b, -⟩
        omega
      · have hb5 : 5 ≤ b := by omega
        have htk : (file.take b).take 5 = file.take 5 := by
          rw [List.take_take]
          congr 1
          omega
        rw [htk]
        by_cases hw : file.take 5 = fromWord
        · rw [if_pos hw, if_pos ⟨by omega, hw⟩]
        · rw [if_neg hw, if_neg]
          rintro ⟨-, hcontra⟩
          exact hw hcontra
    · have hbc : b = c := by omega
      have hb6 : 6 ≤ b := by omega
      have hnewov : (List.drop (b - min 5 b) (file.take b)) = (file.drop (b - 5)).take 5 := by
        rw [List.drop_take]
        congr 1
        · omega
        · congr 1
          omega
      rw [hnewov]
      have hrec := scanChunksF_spec file c (by omega) file.length b (by omega) (by omega)
        (by omega)
      rw [hrec]
      have hsplit := filter_range_split (n := file.length) (u := b)
        (A := fun p => matchAtB file p) (g := fun p => decide (1 ≤ p))
        (by intro p hp; simp only [decide_eq_true_eq]; omega)
      rw [envelopeOffsetsSpec, List.append_assoc, ← List.map_append, ← hsplit]
      congr 1
      rcases Nat.lt_or_ge file.length 5 with hs | hs
      · omega
      · have hb5 : 5 ≤ b := by omega
        have htk : (file.take b).take 5 = file.take 5 := by
          rw [List.take_take]
          congr 1
          omega
        rw [htk]
        by_cases hw : file.take 5 = fromWord
        · rw [if_pos hw, if_pos ⟨by omega, hw⟩]
        · rw [if_neg hw, if_neg]
          rintro ⟨-, hcontra⟩
          exact hw hcontra

/-- A chunk covering the whole file also computes the reference list. -/
theorem envelopeOffsets_of_len_le (file : List Nat) (c : Nat) (_hc : 1 ≤ c)
    (hlen : file.length ≤ c) : envelopeOffsets c file = envelopeOffsetsSpec file := by
  rcases Nat.eq_zero_or_pos file.length with h0 | hpos
  · rw [envelopeOffsets, scanChunksF_stop file c _ 0 [] (by omega), envelopeOffsetsSpec,
      specHead_short file (by omega), h0]
    simp
  · rw [envelopeOffsets,
      scanChunksF_step file c file.length 0 [] (by omega)]
    simp only [Nat.sub_zero, List.drop_zero, List.nil_append, List.length_nil, Nat.zero_add,
      List.length_take, true_and, and_self, if_true]
    have hbdef : min c file.length = file.length := by omega
    rw [hbdef, List.take_length]
    have hmb : min file.length file.length = file.length := by omega
    rw [hmb]
    have hfound : (scanFrom file 1).map (fun idx => idx + 1)
        = ((List.range file.length).filter
            (fun p => decide (1 ≤ p) && matchAtB file p)).map (fun p => p + 1) := by
      rw [scanFrom_spec]
    rw [hfound]
    rw [scanChunksF_stop file c _ _ _ (by omega), List.append_nil, envelopeOffsetsSpec]
    congr 1
    rcases Nat.lt_or_ge file.length 5 with hs | hs
    · rw [specHead_short file hs, if_neg]
      rintro ⟨h5b, -⟩
      omega
    · by_cases hw : file.take 5 = fromWord
      · rw [if_pos hw, if_pos ⟨by omega, hw⟩]
      · rw [if_neg hw, if_neg]
        rintro ⟨-, hcontra⟩
        exact hw hcontra

/-- C2 (amended): for every input file and every chunk size of at least the
marker length (6 bytes), the boundary-offset list produced by the chunked scan
(with its marker-length-minus-one carried-over overlap) is identical to the
list produced by scanning the whole file as one single chunk. For positive
chunk sizes below the marker length the claim fails: the carried overlap
`min(marker.length - 1, bytesRead)` and the five-byte file-start test lose
bytes, so boundaries are missed (see the counterexample). -/
theorem claim_C2_amended (file : List Nat) (c : Nat) (h6 : 6 ≤ c) :
    envelopeOffsets c file = envelopeOffsetsSingle file := by
  rw [envelopeOffsets_of_six_le file c h6, envelopeOffsetsSingle,
    envelopeOffsets_of_len_le file _ (by omega) (by omega)]

/-- C2 counterexample: with the positive chunk size 2 (smaller than marker
length + 1, a case the claim explicitly includes) the scan of the two-message
file `"From a\nFrom b"` finds no boundary at all, while the single-chunk scan
finds offsets 0 and 7. -/
theorem claim_C2_counterexample :
    envelopeOffsets 2 exFile = [] ∧ envelopeOffsetsSingle exFile = [0, 7] ∧
      envelopeOffsets 2 exFile ≠ envelopeOffsetsSingle exFile :=
  ⟨by decide, by decide, by decide⟩

/-- C2 witness: the amended equivalence applied at chunk size 6 on the example
file. -/
theorem claim_C2_witness :
    envelopeOffsets 6 exFile = envelopeOffsetsSingle exFile :=
  claim_C2_amended exFile 6 (by decide)

-- ── folder synthesis: supporting lemmas ──

theorem insertSorted_perm (le : α → α → Bool) (a : α) (l : List α) :
    (insertSorted le a l).Perm (a :: l) := by
  induction l with
  | nil => simp [insertSorted]
  | cons b t ih =>
    rw [insertSorted]
    by_cases h : le a b
    · rw [if_pos h]
    · rw [if_neg h]
      exact (ih.cons b).trans (List.Perm.swap a b t)

theorem stableSort_perm (le : α → α → Bool) (l : List α) : (stableSort le l).Perm l := by
  induction l with
  | nil => simp [stableSort]
  | cons a t ih => exact (insertSorted_perm le a _).trans (ih.cons a)

theorem stableSort_nodup (le : α → α → Bool) (l : List α) (h : l.Nodup) :
    (stableSort le l).Nodup := ((stableSort_perm le l).nodup_iff).2 h

theorem mem_stableSort {le : α → α → Bool} {l : List α} {a : α} :
    a ∈ stableSort le l ↔ a ∈ l := (stableSort_perm le l).mem_iff

theorem foldl_preserves_mem {σ : Type u} {α : Type v} {P : σ → Prop} {f : σ → α → σ} :
    ∀ (l : List α), (∀ s a, a ∈ l → P s → P (f s a)) → ∀ s, P s → P (l.foldl f s) := by
  intro l
  induction l with
  | nil => intro _ s hs; simpa using hs
  | cons a t ih =>
    intro h s hs
    exact ih (fun s2 b hb => h s2 b (List.mem_cons_of_mem a hb)) _
      (h s a (List.mem_cons_self a t) hs)

theorem mem_jmKeys_set [DecidableEq K] {m : List (K × V)} {k a : K} {v : V}
    (h : a ∈ jmKeys (jmSet m k v)) : a = k ∨ a ∈ jmKeys m := by
  by_cases hk : k ∈ jmKeys m
  · rw [jmKeys_set_mem m k v hk] at h
    exact Or.inr h
  · rw [jmKeys_set_notMem m k v hk] at h
    rcases List.mem_append.1 h with h | h
    · exact Or.inr h
    · exact Or.inl (by simpa using h)

/-- Keys of both label maps stay duplicate-free through the counting loop. -/
theorem collectStep_nodup {st : List (String × Nat) × List (String × List Nat)}
    {i : Nat} {labels : List String}
    (h : (jmKeys st.1).Nodup ∧ (jmKeys st.2).Nodup) :
    (jmKeys (collectStep st i labels).1).Nodup ∧ (jmKeys (collectStep st i labels).2).Nodup := by
  rw [collectStep]
  refine foldl_preserves_mem (f := labelTick i)
    (P := fun s => (jmKeys s.1).Nodup ∧ (jmKeys s.2).Nodup) labels ?_ _ ?_
  · intro s label _ hs
    rw [labelTick]
    by_cases hn : normalizeLabel label = ""
    · simpa [hn] using hs
    · exact ⟨by simpa [hn] using jmKeys_nodup_set _ _ _ hs.1,
        by simpa [hn] using jmKeys_nodup_set _ _ _ hs.2⟩
  · by_cases he : labels.isEmpty
    · exact ⟨by simpa [he] using jmKeys_nodup_set _ _ _ h.1,
        by simpa [he] using jmKeys_nodup_set _ _ _ h.2⟩
    · simpa [he] using h

theorem collectGo_nodup :
    ∀ (midx : List MessageIndex) (st : List (String × Nat) × List (String × List Nat)) (i : Nat),
      (jmKeys st.1).Nodup ∧ (jmKeys st.2).Nodup →
      (jmKeys (collectGo st i midx).1).Nodup ∧ (jmKeys (collectGo st i midx).2).Nodup := by
  intro midx
  induction midx with
  | nil => intro st i h; simpa [collectGo] using h
  | cons m rest ih =>
    intro st i h
    rw [collectGo]
    exact ih _ _ (collectStep_nodup h)

theorem fmapsOf_counts_nodup (midx : List MessageIndex) :
    (jmKeys (fmapsOf midx).1).Nodup := by
  have h := collectGo_nodup midx ([], []) 0 (by simp [jmKeys])
  rw [fmapsOf, addAllMail]
  exact jmKeys_nodup_set _ _ _ h.1

/-- Any key of the final count map is `"All Mail"` or a normalized label of
some message. -/
theorem collectStep_keys_sub {st : List (String × Nat) × List (String × List Nat)}
    {i : Nat} {labels : List String} {k : String}
    (h : k ∈ jmKeys (collectStep st i labels).1) :
    k ∈ jmKeys st.1 ∨ k = "All Mail" ∨ ∃ l ∈ labels, k = normalizeLabel l := by
  rw [collectStep] at h
  revert h
  refine foldl_preserves_mem (f := labelTick i)
    (P := fun s => k ∈ jmKeys s.1 →
      k ∈ jmKeys st.1 ∨ k = "All Mail" ∨ ∃ l ∈ labels, k = normalizeLabel l)
    labels ?_ _ ?_
  · intro s label hmem hprev hk
    rw [labelTick] at hk
    by_cases hn : normalizeLabel label = ""
    · rw [if_pos hn] at hk
      exact hprev hk
    · rw [if_neg hn] at hk
      rcases mem_jmKeys_set hk with h2 | h2
      · exact Or.inr (Or.inr ⟨label, hmem, h2⟩)
      · exact hprev h2
  · intro hk
    by_cases he : labels.isEmpty
    · rw [if_pos he] at hk
      rcases mem_jmKeys_set hk with h2 | h2
      · exact Or.inr (Or.inl h2)
      · exact Or.inl h2
    · rw [if_neg he] at hk
      exact Or.inl hk

theorem collectGo_keys_sub :
    ∀ (midx : List MessageIndex) (st : List (String × Nat) × List (String × List Nat))
      (i : Nat) (k : String), k ∈ jmKeys (collectGo st i midx).1 →
      k ∈ jmKeys st.1 ∨ k = "All Mail" ∨ ∃ m ∈ midx, ∃ l ∈ m.labels, k = normalizeLabel l := by
  intro midx
  induction midx with
  | nil => intro st i k h; exact Or.inl (by simpa [collectGo] using h)
  | cons m rest ih =>
    intro st i k h
    rw [collectGo] at h
    rcases ih _ _ _ h with h2 | h2 | h2
    · rcases collectStep_keys_sub h2 with h3 | h3 | h3
      · exact Or.inl h3
      · exact Or.inr (Or.inl h3)
      · obtain ⟨l, hl, he⟩ := h3
        exact Or.inr (Or.inr ⟨m, List.mem_cons_self m rest, l, hl, he⟩)
    · exact Or.inr (Or.inl h2)
    · obtain ⟨m2, hm2, hl⟩ := h2
      exact Or.inr (Or.inr ⟨m2, List.mem_cons_of_mem m hm2, hl⟩)

theorem fmapsOf_counts_keys (midx : List MessageIndex) (k : String)
    (h : k ∈ jmKeys (fmapsOf midx).1) :
    k = "All Mail" ∨ ∃ m ∈ midx, ∃ l ∈ m.labels, k = normalizeLabel l := by
  rw [fmapsOf, addAllMail] at h
  rcases mem_jmKeys_set h with h2 | h2
  · exact Or.inl h2
  · rcases collectGo_keys_sub midx ([], []) 0 k h2 with h3 | h3 | h3
    · simp [jmKeys] at h3
    · exact Or.inl h3
    · exact Or.inr h3

/-- `addNestedParts` never touches `processed` and only appends to `topOrder`. -/
theorem addNestedParts_processed (counts : List (String × Nat)) (cnt : Nat) :
    ∀ (parts : List String) (cp : String) (pr : Option String) (st : TreeState),
      (addNestedParts counts cnt parts cp pr st).processed = st.processed := by
  intro parts
  induction parts with
  | nil => intro cp pr st; rw [addNestedParts]
  | cons part rest ih =>
    intro cp pr st
    rw [addNestedParts]
    cases hf : jmFind st.nestedInfo (if cp = "" then part else cp ++ "/" ++ part) with
    | some _ =>
      simp only []
      exact ih _ _ _
    | none =>
      cases pr with
      | none =>
        simp only []
        exact ih _ _ _
      | some pp =>
        simp only []
        exact ih _ _ _

theorem addNestedParts_top_front (counts : List (String × Nat)) (cnt : Nat) :
    ∀ (parts : List String) (cp : String) (pr : Option String) (st : TreeState),
      st.topOrder <+: (addNestedParts counts cnt parts cp pr st).topOrder := by
  intro parts
  induction parts with
  | nil => intro cp pr st; rw [addNestedParts]
  | cons part rest ih =>
    intro cp pr st
    rw [addNestedParts]
    cases hf : jmFind st.nestedInfo (if cp = "" then part else cp ++ "/" ++ part) with
    | some _ =>
      simp only []
      exact ih _ _ _
    | none =>
      cases pr with
      | none =>
        simp only []
        refine List.IsPrefix.trans ?_ (ih _ _ _)
        exact List.prefix_append _ _
      | some pp =>
        simp only []
        refine List.IsPrefix.trans ?_ (ih _ _ _)
        exact List.prefix_rfl

theorem processLabel_top_front (counts : List (String × Nat)) (st : TreeState)
    (label : String) : st.topOrder <+: (processLabel counts st label).topOrder := by
  rw [processLabel]
  by_cases hc : st.processed.contains label
  · rw [if_pos hc]
  · rw [if_neg hc]
    by_cases hcat : jsStartsWith label "Category "
    · rw [if_pos hcat]
    · rw [if_neg hcat]
      by_cases hsl : jsContainsChar label '/'
      · rw [if_pos hsl]
        refine List.IsPrefix.trans ?_ (addNestedParts_top_front _ _ _ _ _ _)
        exact List.prefix_rfl
      · rw [if_neg hsl]
        exact List.prefix_append _ _

theorem fold_top_front (counts : List (String × Nat)) :
    ∀ (L : List String) (st : TreeState),
      st.topOrder <+: (L.foldl (processLabel counts) st).topOrder := by
  intro L
  induction L with
  | nil => intro st; rw [List.foldl_nil]
  | cons a t ih =>
    intro st
    rw [List.foldl_cons]
    exact (processLabel_top_front counts st a).trans (ih _)

theorem processLabel_processed_sub (counts : List (String × Nat)) (st : TreeState)
    (label : String) :
    (processLabel counts st label).processed ⊆ st.processed ++ [label] := by
  rw [processLabel]
  by_cases hc : st.processed.contains label
  · rw [if_pos hc]
    exact fun x hx => List.mem_append.2 (Or.inl hx)
  · rw [if_neg hc]
    by_cases hcat : jsStartsWith label "Category "
    · rw [if_pos hcat]
      exact fun x hx => hx
    · rw [if_neg hcat]
      by_cases hsl : jsContainsChar label '/'
      · rw [if_pos hsl, addNestedParts_processed]
        exact fun x hx => hx
      · rw [if_neg hsl]
        exact fun x hx => hx

/-- A never-seen flat label (no `/`, no `Category` prefix) ends up as a flat
top-level entry carrying its full count. -/
theorem fold_flat_mem (counts : List (String × Nat)) :
    ∀ (L : List String) (st : TreeState), L.Nodup → (∀ x ∈ L, x ∉ st.processed) →
      ∀ l ∈ L, jsStartsWith l "Category " = false → jsContainsChar l '/' = false →
      TopEntry.flat (PstFolder.mk l l (jmGetD counts l 0) [])
        ∈ (L.foldl (processLabel counts) st).topOrder := by
  intro L
  induction L with
  | nil => intro st _ _ l hl; exact absurd hl (List.not_mem_nil l)
  | cons a t ih =>
    intro st hnd hproc l hl hcat hsl
    rw [List.foldl_cons]
    rcases List.mem_cons.1 hl with he | ht
    · subst he
      have hstep : (processLabel counts st l).topOrder
          = st.topOrder ++ [TopEntry.flat (PstFolder.mk l l (jmGetD counts l 0) [])] := by
        rw [processLabel]
        have hc : st.processed.contains l = false := by
          simpa using hproc l (List.mem_cons_self l t)
        rw [if_neg (by rw [hc]; exact Bool.false_ne_true),
          if_neg (by rw [hcat]; exact Bool.false_ne_true),
          if_neg (by rw [hsl]; exact Bool.false_ne_true)]
      have hmem : TopEntry.flat (PstFolder.mk l l (jmGetD counts l 0) [])
          ∈ (processLabel counts st l).topOrder := by
        rw [hstep]
        exact List.mem_append.2 (Or.inr (List.mem_singleton.2 rfl))
      exact (fold_top_front counts t _).subset hmem
    · refine ih _ (hnd.of_cons) ?_ l ht hcat hsl
      intro x hx hmem
      have := processLabel_processed_sub counts st a hmem
      rcases List.mem_append.1 this with h2 | h2
      · exact hproc x (List.mem_cons_of_mem a hx) h2
      · have hxa : x = a := by simpa using h2
        subst hxa
        exact (List.nodup_cons.1 hnd).1 hx

/-- When every label is slash-free, the label loop builds only flat top-level
entries and category children, in sorted order, and leaves the arena empty. -/
theorem fold_flat_shape (counts : List (String × Nat)) :
    ∀ (L : List String) (st : TreeState),
      (∀ l ∈ L, jsContainsChar l '/' = false) → (∀ l ∈ L, l ∉ st.processed) → L.Nodup →
      ((L.foldl (processLabel counts) st).topOrder
          = st.topOrder ++ (L.filter (fun l => !jsStartsWith l "Category ")).map
              (fun l => TopEntry.flat (PstFolder.mk l l (jmGetD counts l 0) []))) ∧
      ((L.foldl (processLabel counts) st).catChildren
          = st.catChildren ++ (L.filter (fun l => jsStartsWith l "Category ")).map
              (fun l => PstFolder.mk l (jsDrop l 9) (jmGetD counts l 0) [])) ∧
      (L.foldl (processLabel counts) st).nestedInfo = st.nestedInfo ∧
      (L.foldl (processLabel counts) st).nestedKids = st.nestedKids := by
  intro L
  induction L with
  | nil => intro st _ _ _; exact ⟨by simp, by simp, rfl, rfl⟩
  | cons a T ih =>
    intro st hsl hproc hnd
    rw [List.foldl_cons]
    have hc : st.processed.contains a = false := by
      simpa using hproc a (List.mem_cons_self a T)
    have hslA : jsContainsChar a '/' = false := hsl a (List.mem_cons_self a T)
    have hT : ∀ l ∈ T, jsContainsChar l '/' = false :=
      fun l hl => hsl l (List.mem_cons_of_mem a hl)
    have hprocT : ∀ x ∈ T, x ∉ (processLabel counts st a).processed := by
      intro x hx hmem
      rcases List.mem_append.1 (processLabel_processed_sub counts st a hmem) with h2 | h2
      · exact hproc x (List.mem_cons_of_mem a hx) h2
      · have hxa : x = a := by simpa using h2
        subst hxa
        exact (List.nodup_cons.1 hnd).1 hx
    obtain ⟨e1, e2, e3, e4⟩ := ih (processLabel counts st a) hT hprocT hnd.of_cons
    by_cases hcat : jsStartsWith a "Category "
    · have hstep : processLabel counts st a
          = { st with
              processed := st.processed ++ [a]
              catChildren := st.catChildren ++ [PstFolder.mk a (jsDrop a 9) (jmGetD counts a 0) []] } := by
        rw [processLabel, if_neg (by rw [hc]; exact Bool.false_ne_true), if_pos hcat]
      rw [hstep] at e1 e2 e3 e4
      rw [hstep]
      refine ⟨?_, ?_, e3, e4⟩
      · rw [e1, List.filter_cons, if_neg (by simp [hcat])]
      · rw [e2, List.filter_cons, if_pos (by simp [hcat]), List.map_cons, List.append_assoc,
          List.singleton_append]
    · have hcatF : jsStartsWith a "Category " = false := by
        cases hx : jsStartsWith a "Category "
        · rfl
        · exact absurd hx hcat
      have hstep : processLabel counts st a
          = { st with
              processed := st.processed ++ [a]
              topOrder := st.topOrder ++ [TopEntry.flat (PstFolder.mk a a (jmGetD counts a 0) [])] } := by
        rw [processLabel, if_neg (by rw [hc]; exact Bool.false_ne_true),
          if_neg (by rw [hcatF]; exact Bool.false_ne_true),
          if_neg (by rw [hslA]; exact Bool.false_ne_true)]
      rw [hstep] at e1 e2 e3 e4
      rw [hstep]
      refine ⟨?_, ?_, e3, e4⟩
      · rw [e1, List.filter_cons, if_pos (by simp [hcatF]), List.map_cons, List.append_assoc,
          List.singleton_append]
      · rw [e2, List.filter_cons, if_neg (by simp [hcatF])]

theorem idsUpTo_nil : ∀ d, idsUpTo d ([] : List PstFolder) = [] := by
  intro d
  cases d with
  | zero => rw [idsUpTo]
  | succ d2 => rw [idsUpTo, List.foldr_nil]

/-- For a forest of childless nodes, any positive depth collects exactly the
node ids in order. -/
theorem idsUpTo_flat_forest :
    ∀ (fs : List PstFolder) (d : Nat), (∀ f ∈ fs, f.children = []) →
      idsUpTo (d + 1) fs = fs.map PstFolder.id := by
  intro fs
  induction fs with
  | nil => intro d _; exact idsUpTo_nil _
  | cons f t ih =>
    intro d h
    rw [idsUpTo, List.foldr_cons, List.map_cons]
    have hf : f.children = [] := h f (List.mem_cons_self f t)
    rw [hf, idsUpTo_nil, List.nil_append]
    have := ih d (fun g hg => h g (List.mem_cons_of_mem f hg))
    rw [idsUpTo] at this
    rw [this]

/-- Unfolding `idsUpTo` on a singleton. -/
theorem idsUpTo_singleton (d : Nat) (f : PstFolder) :
    idsUpTo (d + 1) [f] = f.id :: idsUpTo d f.children := by
  rw [idsUpTo, List.foldr_cons, List.foldr_nil, List.append_nil]

theorem idsUpTo_append_acc (d : Nat) :
    ∀ (fs : List PstFolder) (X : List String),
      fs.foldr (fun f acc => f.id :: (idsUpTo d f.children ++ acc)) X
        = fs.foldr (fun f acc => f.id :: (idsUpTo d f.children ++ acc)) [] ++ X := by
  intro fs
  induction fs with
  | nil => intro X; simp
  | cons f t ih =>
    intro X
    rw [List.foldr_cons, List.foldr_cons, ih X, List.cons_append, List.append_assoc]

theorem idsUpTo_append (d : Nat) (fs gs : List PstFolder) :
    idsUpTo d (fs ++ gs) = idsUpTo d fs ++ idsUpTo d gs := by
  cases d with
  | zero => rw [idsUpTo]; rw [idsUpTo, idsUpTo]; rfl
  | succ d2 =>
    rw [idsUpTo, List.foldr_append, idsUpTo_append_acc, idsUpTo, idsUpTo]

theorem sortedLabels_nodup (midx : List MessageIndex) : (sortedLabelsOf midx).Nodup := by
  rw [sortedLabelsOf]
  exact stableSort_nodup _ _ (fmapsOf_counts_nodup midx)

/-- Every sorted label is `"All Mail"` or a normalized message label. -/
theorem sortedLabels_keys (midx : List MessageIndex) (l : String)
    (hl : l ∈ sortedLabelsOf midx) :
    l = "All Mail" ∨ ∃ m ∈ midx, ∃ l2 ∈ m.labels, l = normalizeLabel l2 := by
  rw [sortedLabelsOf] at hl
  exact fmapsOf_counts_keys midx l (mem_stableSort.1 hl)

/-- Under slash-free labels the produced top level is flat folders in sorted
order, plus the synthetic `Categories` parent when category labels exist. -/
theorem topLevelOf_flat (midx : List MessageIndex)
    (hyp : ∀ l ∈ sortedLabelsOf midx, jsContainsChar l '/' = false) :
    topLevelOf midx
      = ((sortedLabelsOf midx).filter (fun l => !jsStartsWith l "Category ")).map
          (fun l => PstFolder.mk l l (jmGetD (fmapsOf midx).1 l 0) [])
        ++ (if ((sortedLabelsOf midx).filter (fun l => jsStartsWith l "Category ")).isEmpty
            then []
            else [PstFolder.mk "__categories__" "Categories" 0
              (((sortedLabelsOf midx).filter (fun l => jsStartsWith l "Category ")).map
                (fun l => PstFolder.mk l (jsDrop l 9) (jmGetD (fmapsOf midx).1 l 0) []))]) := by
  obtain ⟨e1, e2, e3, e4⟩ := fold_flat_shape (fmapsOf midx).1 (sortedLabelsOf midx)
    ⟨[], [], [], [], []⟩ hyp (fun x _ hx => absurd hx (List.not_mem_nil x))
    (sortedLabels_nodup midx)
  have he1 : (treeStateOf midx).topOrder
      = ((sortedLabelsOf midx).filter (fun l => !jsStartsWith l "Category ")).map
          (fun l => TopEntry.flat (PstFolder.mk l l (jmGetD (fmapsOf midx).1 l 0) [])) := by
    rw [treeStateOf]
    simpa using e1
  have he2 : (treeStateOf midx).catChildren
      = ((sortedLabelsOf midx).filter (fun l => jsStartsWith l "Category ")).map
          (fun l => PstFolder.mk l (jsDrop l 9) (jmGetD (fmapsOf midx).1 l 0) []) := by
    rw [treeStateOf]
    simpa using e2
  have hmap : ∀ (info : List (String × (String × Nat))) (kids : List (String × List String))
      (fuel : Nat),
      (((sortedLabelsOf midx).filter (fun l => !jsStartsWith l "Category ")).map
          (fun l => TopEntry.flat (PstFolder.mk l l (jmGetD (fmapsOf midx).1 l 0) []))).map
        (topEntryNode info kids fuel)
        = ((sortedLabelsOf midx).filter (fun l => !jsStartsWith l "Category ")).map
          (fun l => PstFolder.mk l l (jmGetD (fmapsOf midx).1 l 0) []) := by
    intro info kids fuel
    rw [List.map_map]
    rfl
  rw [topLevelOf, he1, hmap, he2]
  by_cases hem : (((sortedLabelsOf midx).filter (fun l => jsStartsWith l "Category "))).isEmpty
  · have hem2 : ((((sortedLabelsOf midx).filter (fun l => jsStartsWith l "Category "))).map
        (fun l => PstFolder.mk l (jsDrop l 9) (jmGetD (fmapsOf midx).1 l 0) [])).isEmpty := by
      rw [List.isEmpty_iff] at hem ⊢
      rw [hem]
      exact List.map_nil
    rw [if_pos hem2, if_pos hem, List.append_nil]
  · have hem2 : ¬((((sortedLabelsOf midx).filter (fun l => jsStartsWith l "Category "))).map
        (fun l => PstFolder.mk l (jsDrop l 9) (jmGetD (fmapsOf midx).1 l 0) [])).isEmpty := by
      rw [List.isEmpty_iff] at hem ⊢
      intro h0
      exact hem (List.map_eq_nil_iff.1 h0)
    rw [if_neg hem2, if_neg hem]

/-- C3 (amended): folder ids are unique across the whole tree (at every
nesting depth) for every index whose normalized labels contain no `/` path
separator and never equal the synthetic id `"__categories__"`. With a `/`-
label the claim fails: a flat label that equals a path prefix of a nested
label yields two distinct nodes with the same id (see the counterexample). -/
theorem claim_C3_amended (midx : List MessageIndex) (d : Nat)
    (hyp : ∀ m ∈ midx, ∀ l ∈ m.labels,
      jsContainsChar (normalizeLabel l) '/' = false ∧ normalizeLabel l ≠ "__categories__") :
    (idsUpTo d (buildFolderTree midx).1).Nodup := by
  have hkeys : ∀ l ∈ sortedLabelsOf midx,
      jsContainsChar l '/' = false ∧ l ≠ "__categories__" := by
    intro l hl
    rcases sortedLabels_keys midx l hl with he | ⟨m, hm, l2, hl2, he⟩
    · subst he
      exact ⟨by decide, by decide⟩
    · subst he
      exact hyp m hm l2 hl2
  have hslash : ∀ l ∈ sortedLabelsOf midx, jsContainsChar l '/' = false :=
    fun l hl => (hkeys l hl).1
  have htree : (buildFolderTree midx).1 = topLevelOf midx := rfl
  rw [htree, topLevelOf_flat midx hslash]
  cases d with
  | zero => rw [idsUpTo]; exact List.nodup_nil
  | succ d2 =>
    rw [idsUpTo_append]
    have hflatNC : ∀ f ∈ ((sortedLabelsOf midx).filter (fun l => !jsStartsWith l "Category ")).map
        (fun l => PstFolder.mk l l (jmGetD (fmapsOf midx).1 l 0) []), f.children = [] := by
      intro f hf
      obtain ⟨l, _, rfl⟩ := List.mem_map.1 hf
      rfl
    rw [idsUpTo_flat_forest _ d2 hflatNC, List.map_map]
    have hid : (PstFolder.id ∘ fun l => PstFolder.mk l l (jmGetD (fmapsOf midx).1 l 0) [])
        = fun l => l := by
      funext l
      rfl
    rw [hid, List.map_id']
    have hNCnd : ((sortedLabelsOf midx).filter (fun l => !jsStartsWith l "Category ")).Nodup :=
      (sortedLabels_nodup midx).filter _
    have hCTnd : ((sortedLabelsOf midx).filter (fun l => jsStartsWith l "Category ")).Nodup :=
      (sortedLabels_nodup midx).filter _
    by_cases hem : ((sortedLabelsOf midx).filter (fun l => jsStartsWith l "Category ")).isEmpty
    · rw [if_pos hem, idsUpTo_nil, List.append_nil]
      exact hNCnd
    · rw [if_neg hem]
      have hone : idsUpTo (d2 + 1) [PstFolder.mk "__categories__" "Categories" 0
          (((sortedLabelsOf midx).filter (fun l => jsStartsWith l "Category ")).map
            (fun l => PstFolder.mk l (jsDrop l 9) (jmGetD (fmapsOf midx).1 l 0) []))]
          = "__categories__" :: idsUpTo d2
            (((sortedLabelsOf midx).filter (fun l => jsStartsWith l "Category ")).map
              (fun l => PstFolder.mk l (jsDrop l 9) (jmGetD (fmapsOf midx).1 l 0) [])) := by
        rw [idsUpTo_singleton]
        rfl
      rw [hone]
      rw [List.nodup_append]
      refine ⟨hNCnd, ?_, ?_⟩
      · cases d2 with
        | zero =>
          rw [idsUpTo]
          simp
        | succ d3 =>
          have hflatCT : ∀ f ∈ ((sortedLabelsOf midx).filter
              (fun l => jsStartsWith l "Category ")).map
              (fun l => PstFolder.mk l (jsDrop l 9) (jmGetD (fmapsOf midx).1 l 0) []),
              f.children = [] := by
            intro f hf
            obtain ⟨l, _, rfl⟩ := List.mem_map.1 hf
            rfl
          rw [idsUpTo_flat_forest _ d3 hflatCT, List.map_map]
          have hid2 : (PstFolder.id ∘ fun l =>
              PstFolder.mk l (jsDrop l 9) (jmGetD (fmapsOf midx).1 l 0) []) = fun l => l := by
            funext l
            rfl
          rw [hid2, List.map_id', List.nodup_cons]
          refine ⟨fun hx => ?_, hCTnd⟩
          exact (hkeys _ (List.mem_of_mem_filter hx)).2 rfl
      · intro x hxNC hx
        cases d2 with
        | zero =>
          rw [idsUpTo] at hx
          have hxe : x = "__categories__" := by simpa using hx
          exact (hkeys x (List.mem_of_mem_filter hxNC)).2 hxe
        | succ d3 =>
          have hflatCT : ∀ f ∈ ((sortedLabelsOf midx).filter
              (fun l => jsStartsWith l "Category ")).map
              (fun l => PstFolder.mk l (jsDrop l 9) (jmGetD (fmapsOf midx).1 l 0) []),
              f.children = [] := by
            intro f hf
            obtain ⟨l, _, rfl⟩ := List.mem_map.1 hf
            rfl
          rw [idsUpTo_flat_forest _ d3 hflatCT, List.map_map] at hx
          have hid2 : (PstFolder.id ∘ fun l =>
              PstFolder.mk l (jsDrop l 9) (jmGetD (fmapsOf midx).1 l 0) []) = fun l => l := by
            funext l
            rfl
          rw [hid2, List.map_id'] at hx
          rcases List.mem_cons.1 hx with he | hxCT
          · exact (hkeys x (List.mem_of_mem_filter hxNC)).2 he
          · have h1 := List.of_mem_filter hxNC
            have h2 := List.of_mem_filter hxCT
            rw [h2] at h1
            simp at h1

/-- C3 counterexample: with labels `"Work"` and `"Work/Projects"` the produced
tree holds two distinct top-level nodes that both carry the id `"Work"` (the
flat branch of the label loop never consults the `nestedFolders` arena), so
node ids are not unique across the tree. -/
theorem claim_C3_counterexample :
    idsUpTo 3 (buildFolderTree c3cexIndex).1
        = ["All Mail", "Work", "Work", "Work/Projects"] ∧
      ¬(idsUpTo 3 (buildFolderTree c3cexIndex).1).Nodup :=
  ⟨by decide, by decide⟩

/-- C3 witness: the amended uniqueness theorem applied to the slash-free
3-message scenario index, at collection depth 3. -/
theorem claim_C3_witness : (idsUpTo 3 (buildFolderTree c6Index).1).Nodup :=
  claim_C3_amended c6Index 3 (by decide)

/-- C6: folder synthesis always yields an `"All Mail"` entry mapped to every
message ordinal with count equal to the index length, and a flat `"All Mail"`
node in the tree; on the 3-message scenario (labels `"Inbox"`,
`"Inbox,Important"`, none) the tree is exactly Inbox(2), Important(1),
All Mail(3), the map sends Inbox to [0,1], Important to [1], All Mail to
[0,1,2], and the unlabeled ordinal 2 appears only under `"All Mail"`. -/
theorem claim_C6 :
    (∀ midx : List MessageIndex,
        jmFind (buildFolderTree midx).2 "All Mail" = some (List.range midx.length) ∧
        PstFolder.mk "All Mail" "All Mail" midx.length [] ∈ (buildFolderTree midx).1) ∧
    (buildFolderTree c6Index).1
        = [PstFolder.mk "Inbox" "Inbox" 2 [], PstFolder.mk "Important" "Important" 1 [],
           PstFolder.mk "All Mail" "All Mail" 3 []] ∧
    (buildFolderTree c6Index).2
        = [("Inbox", [0, 1]), ("Important", [1]), ("All Mail", [0, 1, 2])] ∧
    (∀ kl ∈ (buildFolderTree c6Index).2, 2 ∈ kl.2 → kl.1 = "All Mail") := by
  refine ⟨?_, by rfl, by decide, by decide⟩
  intro midx
  constructor
  · have h2 : (buildFolderTree midx).2
        = jmSet (if jmHas (collectLabels midx).2 "All Mail" then (collectLabels midx).2
            else jmSet (collectLabels midx).2 "All Mail" []) "All Mail"
          (List.range midx.length) := rfl
    rw [h2]
    exact jmFind_set_self _ _ _
  · have hfind : jmFind (fmapsOf midx).1 "All Mail" = some midx.length := by
      have h3 : (fmapsOf midx).1
          = jmSet (collectGo ([], []) 0 midx).1 "All Mail" midx.length := rfl
      rw [h3]
      exact jmFind_set_self _ _ _
    have hcount : jmGetD (fmapsOf midx).1 "All Mail" 0 = midx.length := by
      rw [jmGetD, hfind]
      rfl
    have hmemS : "All Mail" ∈ sortedLabelsOf midx := by
      rw [sortedLabelsOf, mem_stableSort, ← jmFind_isSome_iff_mem_keys, hfind]
      rfl
    have hfm := fold_flat_mem (fmapsOf midx).1 (sortedLabelsOf midx)
      ⟨[], [], [], [], []⟩ (sortedLabels_nodup midx)
      (fun x _ hx => absurd hx (List.not_mem_nil x))
      "All Mail" hmemS (by decide) (by decide)
    rw [hcount] at hfm
    have hfm2 : TopEntry.flat (PstFolder.mk "All Mail" "All Mail" midx.length [])
        ∈ (treeStateOf midx).topOrder := by
      rw [treeStateOf]
      exact hfm
    have hnode : PstFolder.mk "All Mail" "All Mail" midx.length []
        ∈ (treeStateOf midx).topOrder.map
          (topEntryNode (treeStateOf midx).nestedInfo (treeStateOf midx).nestedKids
            ((treeStateOf midx).nestedInfo.length + 1)) :=
      List.mem_map.2 ⟨_, hfm2, rfl⟩
    have htree : (buildFolderTree midx).1 = topLevelOf midx := rfl
    rw [htree, topLevelOf]
    by_cases hcc : (treeStateOf midx).catChildren.isEmpty
    · rw [if_pos hcc]
      exact hnode
    · rw [if_neg hcc]
      exact List.mem_append.2 (Or.inl hnode)

/-- Inside an open double quote, every character — commas included — is
appended to the current field verbatim. -/
theorem splitLabelsGo_quoted (s : List Char) (hq : Char.ofNat 34 ∉ s) :
    ∀ (labels : List (List Char)) (current : List Char) (rest : List Char),
      splitLabelsGo labels current true (s ++ rest)
        = splitLabelsGo labels (current ++ s) true rest := by
  induction s with
  | nil =>
    intro labels current rest
    rw [List.nil_append, List.append_nil]
  | cons c t ih =>
    intro labels current rest
    have hc : c ≠ Char.ofNat 34 := fun he => hq (he ▸ List.mem_cons_self c t)
    have ht : Char.ofNat 34 ∉ t := fun hm => hq (List.mem_cons_of_mem c hm)
    rw [List.cons_append, splitLabelsGo, if_neg hc,
      if_neg (by rintro ⟨-, h2⟩; simp at h2)]
    rw [ih ht labels (current ++ [c]) rest, List.append_assoc, List.singleton_append]

/-- C7: splitting a label-header value on commas respects double quotes — any
double-quote-free segment wrapped in quotes comes out as one single (trimmed)
label, commas inside it included; in particular the value
`"Family, Trips"` parses as the one label `Family, Trips`, both through the
split loop and end-to-end through `extractGmailLabels`. -/
theorem claim_C7 :
    (∀ s : List Char, Char.ofNat 34 ∉ s →
      splitLabelsGo [] [] false (Char.ofNat 34 :: (s ++ [Char.ofNat 34]))
        = if (jsTrimChars s).isEmpty then [] else [jsTrimChars s]) ∧
    parseLabelList "\"Family, Trips\"" = ["Family, Trips"] ∧
    extractGmailLabels "X-Gmail-Labels: \"Family, Trips\"\r\nSubject: hi"
      = ["Family, Trips"] := by
  refine ⟨?_, by decide, by decide⟩
  intro s hq
  rw [splitLabelsGo, if_pos rfl, Bool.not_false]
  rw [splitLabelsGo_quoted s hq [] [] [Char.ofNat 34], List.nil_append]
  rw [splitLabelsGo, if_pos rfl, Bool.not_true, splitLabelsGo, List.nil_append]

/-- C7 witness: the quoted-segment property applied to the concrete segment
`Family, Trips`. -/
theorem claim_C7_witness :
    splitLabelsGo [] [] false (Char.ofNat 34 :: ("Family, Trips".data ++ [Char.ofNat 34]))
      = [jsTrimChars "Family, Trips".data] := by
  rw [claim_C7.1 "Family, Trips".data (by decide)]
  decide

-- ── session operations: claims C9, C4 ──

/-- C9: `listMessages` on a folder id absent from `folderMessageMap` returns
the empty page `{messages: [], total: 0}` for every offset and limit — a
successful result, not an error — and leaves the session untouched. -/
theorem claim_C9 (s : MboxSession) (folderId : String) (offset limit : Nat)
    (h : jmFind s.folderMessageMap folderId = none) :
    getMboxMessages s folderId offset limit = (([], 0), s, 0) := by
  rw [getMboxMessages, h]

/-- C9 witness: the empty result on a concrete session and the folder id
`"nonexistent-folder"` with offset 0 and limit 10. -/
theorem claim_C9_witness :
    getMboxMessages (sampleSession 2) "nonexistent-folder" 0 10
      = (([], 0), sampleSession 2, 0) :=
  claim_C9 (sampleSession 2) "nonexistent-folder" 0 10 (by decide)

/-- C4 (amended): a message id whose ordinal part holds no parsable integer
prefix (`parseInt` gives `NaN`) makes `getMessageDetail` fail with the
`Message not found` error, leaving the session unchanged — no crash and no
silent default to ordinal 0. However, an ordinal part consisting of a valid
integer prefix followed by non-numeric characters is *not* rejected: it
silently resolves to that integer's message (see the counterexample). -/
theorem claim_C4_amended :
    (∀ (s : MboxSession) (messageId : String),
      jsParseInt ((jsSplit messageId "::").getD 1 "") = none →
      getMboxMessageDetail s messageId
        = (Except.error ("Message not found: " ++ messageId), s)) ∧
    (∀ (s : MboxSession) (messageId : String) (n : Nat),
      jsParseInt ((jsSplit messageId "::").getD 1 "") = some (n : Int) →
      jmFind s.detailCache n = none →
      n < s.messageIndex.length →
      (getMboxMessageDetail s messageId).1
        = Except.ok (mkDetail messageId ((jsSplit messageId "::").headD "")
            (s.parseFull n))) := by
  constructor
  · intro s messageId h
    rw [getMboxMessageDetail]
    simp only [h, cacheFind]
  · intro s messageId n hp hm hn
    rw [getMboxMessageDetail]
    simp only [hp, cacheFind]
    rw [if_neg (by omega : ¬((n : Int) < 0)), Int.toNat_natCast]
    simp only [hm]
    rw [if_pos ⟨by omega, hn⟩]

/-- C4 counterexample: on a one-message session, the id `"f::0abc"` — a
numeric prefix followed by non-numeric characters — does not fail with
NotFound: `parseInt` silently parses the prefix `0` and the call resolves to
message 0. -/
theorem claim_C4_counterexample :
    exOk (getMboxMessageDetail (sampleSession 1) "f::0abc").1 = true ∧
    (getMboxMessageDetail (sampleSession 1) "f::0abc").1
      = Except.ok (mkDetail "f::0abc" "f" ((sampleSession 1).parseFull 0)) :=
  ⟨by decide, by rfl⟩

/-- C4 witness: the NotFound error on the digit-free ordinal `"f::abc"`. -/
theorem claim_C4_witness :
    getMboxMessageDetail (sampleSession 1) "f::abc"
      = (Except.error ("Message not found: " ++ "f::abc"), sampleSession 1) :=
  claim_C4_amended.1 (sampleSession 1) "f::abc" (by decide)

-- ── session operations: claim C8 ──

theorem ensure_fmap (s : MboxSession) (fid : String) (needed : Nat) :
    (ensureFolderSummariesLoaded s fid needed).1.folderMessageMap = s.folderMessageMap := by
  rw [ensureFolderSummariesLoaded]
  cases hf : jmFind s.folderMessageMap fid with
  | none => rfl
  | some L =>
    simp only []
    split
    · rfl
    · rfl

theorem ensure_loadedUpTo (s : MboxSession) (fid : String) (needed : Nat) (L : List Nat)
    (hf : jmFind s.folderMessageMap fid = some L) :
    min needed L.length
      ≤ jmGetD (ensureFolderSummariesLoaded s fid needed).1.folderLoadedUpTo fid 0 := by
  rw [ensureFolderSummariesLoaded, hf]
  simp only []
  split
  · next h => exact Nat.le_of_lt_succ (Nat.lt_succ_of_le h)
  · simp [jmGetD, jmFind_set_self]

theorem ensure_of_loaded (s : MboxSession) (fid : String) (needed : Nat) (L : List Nat)
    (hf : jmFind s.folderMessageMap fid = some L)
    (h : min needed L.length ≤ jmGetD s.folderLoadedUpTo fid 0) :
    ensureFolderSummariesLoaded s fid needed = (s, 0) := by
  rw [ensureFolderSummariesLoaded, hf]
  simp only []
  rw [if_pos h]

/-- C8: calling `listMessages` twice with the same arguments back-to-back
gives an identical result the second time, leaves the session unchanged, and
performs no additional parsing (the parse counter of the second call is 0). -/
theorem claim_C8 (s : MboxSession) (folderId : String) (offset limit : Nat) :
    (getMboxMessages (getMboxMessages s folderId offset limit).2.1 folderId offset limit).1
        = (getMboxMessages s folderId offset limit).1 ∧
    (getMboxMessages (getMboxMessages s folderId offset limit).2.1 folderId offset limit).2.1
        = (getMboxMessages s folderId offset limit).2.1 ∧
    (getMboxMessages (getMboxMessages s folderId offset limit).2.1 folderId offset limit).2.2
        = 0 := by
  cases hf : jmFind s.folderMessageMap folderId with
  | none =>
    simp only [getMboxMessages, hf]
    exact ⟨trivial, trivial, trivial⟩
  | some L =>
    have hf1 : jmFind (ensureFolderSummariesLoaded s folderId
          (min (offset + limit) L.length)).1.folderMessageMap folderId = some L := by
      rw [ensure_fmap]
      exact hf
    have hld := ensure_loadedUpTo s folderId (min (offset + limit) L.length) L hf
    have h2 := ensure_of_loaded
      (ensureFolderSummariesLoaded s folderId (min (offset + limit) L.length)).1 folderId
      (min (offset + limit) L.length) L hf1
      (le_trans (by omega) hld)
    simp only [getMboxMessages, hf, hf1, h2]
    exact ⟨trivial, trivial, trivial⟩

-- ── session operations: claim C1 ──

theorem jmSet_length_le [DecidableEq K] (m : List (K × V)) (k : K) (v : V) :
    (jmSet m k v).length ≤ m.length + 1 := by
  induction m with
  | nil => simp [jmSet]
  | cons hd t ih =>
    obtain ⟨k2, v2⟩ := hd
    rw [jmSet]
    split
    · simp
    · simpa using ih

theorem jmSet_of_find_none [DecidableEq K] (m : List (K × V)) (k : K) (v : V)
    (h : jmFind m k = none) : jmSet m k v = m ++ [(k, v)] := by
  induction m with
  | nil => simp [jmSet]
  | cons hd t ih =>
    obtain ⟨k2, v2⟩ := hd
    rw [jmFind] at h
    rw [jmSet]
    by_cases hk : k = k2
    · rw [if_pos hk] at h
      exact absurd h (by simp)
    · rw [if_neg hk] at h
      rw [if_neg hk, ih h, List.cons_append]

/-- One `getMessageDetail` call keeps the detail cache within its 200-entry
capacity. -/
theorem detail_cache_le (s : MboxSession) (messageId : String)
    (h : s.detailCache.length ≤ 200) :
    (getMboxMessageDetail s messageId).2.detailCache.length ≤ 200 := by
  rw [getMboxMessageDetail]
  cases hc : cacheFind s.detailCache
      (jsParseInt ((jsSplit messageId "::").getD 1 "")) with
  | some parsed => exact h
  | none =>
    cases hgi : jsParseInt ((jsSplit messageId "::").getD 1 "") with
    | none => exact h
    | some k =>
      simp only []
      split
      · have hlen := jmSet_length_le s.detailCache k.toNat (s.parseFull k.toNat)
        split
        · next hgt =>
          simp only [List.length_tail]
          omega
        · next hgt =>
          simp only []
          omega
      · exact h

/-- C1 (amended): the detail cache never exceeds its 200-entry capacity under
any sequence of `getMessageDetail` calls (starting from any session within
capacity), and an insertion that pushes the cache past capacity evicts
exactly the oldest-inserted entry (the cache becomes its tail plus the new
entry at the end — insertion-order FIFO, not access-order). `getAttachment`,
however, inserts into the same cache without enforcing the bound, so
sequences containing attachment fetches can exceed the capacity (see the
counterexample). -/
theorem claim_C1_amended :
    (∀ (s : MboxSession) (ops : List SessionOp),
      (∀ op ∈ ops, ∃ m, op = SessionOp.detail m) →
      s.detailCache.length ≤ 200 →
      (runOps s ops).detailCache.length ≤ 200) ∧
    (∀ (s : MboxSession) (messageId : String) (n : Nat),
      jsParseInt ((jsSplit messageId "::").getD 1 "") = some (n : Int) →
      jmFind s.detailCache n = none →
      n < s.messageIndex.length →
      s.detailCache.length = 200 →
      (getMboxMessageDetail s messageId).2.detailCache
        = s.detailCache.tail ++ [(n, s.parseFull n)]) := by
  constructor
  · intro s ops
    induction ops generalizing s with
    | nil =>
      intro _ h
      exact h
    | cons op rest ih =>
      intro hall h
      rw [runOps, List.foldl_cons]
      obtain ⟨m, hm⟩ := hall op (List.mem_cons_self op rest)
      subst hm
      exact ih (applyOp s (SessionOp.detail m))
        (fun op2 hop2 => hall op2 (List.mem_cons_of_mem _ hop2))
        (detail_cache_le s m h)
  · intro s messageId n hp hm hn hlen
    rw [getMboxMessageDetail]
    simp only [hp, cacheFind]
    rw [if_neg (by omega : ¬((n : Int) < 0)), Int.toNat_natCast]
    simp only [hm]
    rw [if_pos ⟨by omega, hn⟩]
    simp only []
    rw [jmSet_of_find_none s.detailCache n (s.parseFull n) hm]
    rw [if_pos (by simp [hlen])]
    rcases hcache : s.detailCache with _ | ⟨hd, t⟩
    · rw [hcache] at hlen
      simp at hlen
    · rw [List.cons_append, List.tail_cons, List.tail_cons]

set_option maxRecDepth 8000 in
/-- C1 counterexample: a single `getAttachment` call on a session whose
detail cache already sits at its 200-entry capacity (the state after 200
distinct `getMessageDetail` calls) pushes the cache to 201 entries — the
attachment path inserts without the eviction check. -/
theorem claim_C1_counterexample :
    (runOps c1fullSession [SessionOp.attach "f::200" 0]).detailCache.length = 201 ∧
    ¬((runOps c1fullSession [SessionOp.attach "f::200" 0]).detailCache.length ≤ 200) :=
  ⟨by decide, by decide⟩

set_option maxRecDepth 8000 in
/-- C1 witness: the capacity bound on a concrete detail-only run, and the
FIFO eviction on a concrete full cache. -/
theorem claim_C1_witness :
    (runOps (sampleSession 2) [SessionOp.detail "f::0"]).detailCache.length ≤ 200 ∧
    (getMboxMessageDetail c1fullSession "f::200").2.detailCache
      = c1fullSession.detailCache.tail ++ [(200, c1fullSession.parseFull 200)] :=
  ⟨claim_C1_amended.1 (sampleSession 2) [SessionOp.detail "f::0"]
      (fun op hop => ⟨"f::0", List.mem_singleton.1 hop⟩) (by decide),
    claim_C1_amended.2 c1fullSession "f::200" 200 (by decide) (by decide) (by decide)
      (by decide)⟩

-- ── claim C10: NotFound conditions and unvalidated folder ids ──

theorem jmFind_mem [DecidableEq K] (m : List (K × V)) (k : K) (v : V)
    (h : jmFind m k = some v) : (k, v) ∈ m := by
  induction m with
  | nil => cases h
  | cons hd t ih =>
    obtain ⟨k2, v2⟩ := hd
    rw [jmFind] at h
    by_cases hk : k = k2
    · rw [if_pos hk] at h
      injection h with h2
      subst hk
      subst h2
      exact List.mem_cons_self _ _
    · rw [if_neg hk] at h
      exact List.mem_cons_of_mem _ (ih h)

theorem detail_ok_iff (s : MboxSession)
    (hwf : ∀ p ∈ s.detailCache, p.1 < s.messageIndex.length)
    (messageId : String) :
    exOk (getMboxMessageDetail s messageId).1 = true ↔
      ∃ n : Nat, jsParseInt ((jsSplit messageId "::").getD 1 "") = some (n : Int) ∧
        n < s.messageIndex.length := by
  rw [getMboxMessageDetail]
  cases hgi : jsParseInt ((jsSplit messageId "::").getD 1 "") with
  | none => simp [cacheFind, exOk]
  | some k =>
    by_cases hk : k < 0
    · simp only [cacheFind]
      rw [if_pos hk]
      simp only []
      rw [if_neg (fun hcon => absurd hcon.1 (by omega))]
      simp only [exOk]
      constructor
      · intro h
        exact Bool.noConfusion h
      · rintro ⟨n, hn, -⟩
        injection hn with hn2
        omega
    · have hk0 : (0 : Int) ≤ k := le_of_not_lt hk
      simp only [cacheFind]
      rw [if_neg hk]
      cases hfind : jmFind s.detailCache k.toNat with
      | some parsed =>
        simp only [exOk]
        have hnk : k.toNat < s.messageIndex.length :=
          hwf (k.toNat, parsed) (jmFind_mem _ _ _ hfind)
        constructor
        · intro _
          exact ⟨k.toNat, by rw [Int.toNat_of_nonneg hk0], hnk⟩
        · intro _
          trivial
      | none =>
        simp only []
        by_cases hb : 0 ≤ k ∧ k.toNat < s.messageIndex.length
        · rw [if_pos hb]
          simp only [exOk]
          constructor
          · intro _
            exact ⟨k.toNat, by rw [Int.toNat_of_nonneg hb.1], hb.2⟩
          · intro _
            trivial
        · rw [if_neg hb]
          simp only [exOk]
          constructor
          · intro h
            exact Bool.noConfusion h
          · rintro ⟨n, hn, hlen⟩
            injection hn with hn2
            exact absurd ⟨by omega, by omega⟩ hb

theorem detail_folderId (s : MboxSession) (messageId : String) (d : EmailDetail)
    (h : (getMboxMessageDetail s messageId).1 = Except.ok d) :
    d.folderId = (jsSplit messageId "::").headD "" := by
  rw [getMboxMessageDetail] at h
  cases hc : cacheFind s.detailCache (jsParseInt ((jsSplit messageId "::").getD 1 "")) with
  | some parsed =>
    rw [hc] at h
    simp only [] at h
    injection h with h2
    rw [← h2]
    rfl
  | none =>
    rw [hc] at h
    simp only [] at h
    cases hgi : jsParseInt ((jsSplit messageId "::").getD 1 "") with
    | none =>
      rw [hgi] at h
      simp only [] at h
      exact Except.noConfusion h
    | some k =>
      rw [hgi] at h
      simp only [] at h
      split at h
      · simp only [] at h
        injection h with h2
        rw [← h2]
        rfl
      · exact Except.noConfusion h

theorem attach_ok_iff (s : MboxSession)
    (hwf : ∀ p ∈ s.detailCache, p.1 < s.messageIndex.length)
    (messageId : String) (attachmentIndex : Nat) :
    exOk (getMboxAttachmentBuffer s messageId attachmentIndex).1 = true ↔
      ∃ n : Nat, jsParseInt ((jsSplit messageId "::").getD 1 "") = some (n : Int) ∧
        n < s.messageIndex.length ∧
        attachmentIndex < (detailParsedAt s n).attachments.length := by
  rw [getMboxAttachmentBuffer]
  cases hgi : jsParseInt ((jsSplit messageId "::").getD 1 "") with
  | none => simp [cacheFind, exOk]
  | some k =>
    by_cases hk : k < 0
    · simp only [cacheFind]
      rw [if_pos hk]
      simp only []
      rw [if_neg (fun hcon => absurd hcon.1 (by omega))]
      simp only [exOk]
      constructor
      · intro h
        exact Bool.noConfusion h
      · rintro ⟨n, hn, -, -⟩
        injection hn with hn2
        omega
    · have hk0 : (0 : Int) ≤ k := le_of_not_lt hk
      simp only [cacheFind]
      rw [if_neg hk]
      cases hfind : jmFind s.detailCache k.toNat with
      | some parsed =>
        simp only []
        have hnk : k.toNat < s.messageIndex.length :=
          hwf (k.toNat, parsed) (jmFind_mem _ _ _ hfind)
        have hdp : detailParsedAt s k.toNat = parsed := by
          rw [detailParsedAt, hfind]
          rfl
        cases hga : parsed.attachments.get? attachmentIndex with
        | some att =>
          simp only [exOk]
          constructor
          · intro _
            obtain ⟨hlt2, -⟩ := List.get?_eq_some.1 hga
            exact ⟨k.toNat, by rw [Int.toNat_of_nonneg hk0], hnk, by rw [hdp]; exact hlt2⟩
          · intro _
            trivial
        | none =>
          simp only [exOk]
          constructor
          · intro h
            exact Bool.noConfusion h
          · rintro ⟨n, hn, -, hatt⟩
            injection hn with hn2
            have hnn : n = k.toNat := by omega
            rw [hnn, hdp] at hatt
            have hge := List.get?_eq_none.1 hga
            omega
      | none =>
        by_cases hb : 0 ≤ k ∧ k.toNat < s.messageIndex.length
        · rw [if_pos hb]
          simp only []
          have hdp : detailParsedAt s k.toNat = s.parseFull k.toNat := by
            rw [detailParsedAt, hfind]
            rfl
          cases hga : (s.parseFull k.toNat).attachments.get? attachmentIndex with
          | some att =>
            simp only [exOk]
            constructor
            · intro _
              obtain ⟨hlt2, -⟩ := List.get?_eq_some.1 hga
              exact ⟨k.toNat, by rw [Int.toNat_of_nonneg hb.1], hb.2, by rw [hdp]; exact hlt2⟩
            · intro _
              trivial
          | none =>
            simp only [exOk]
            constructor
            · intro h
              exact Bool.noConfusion h
            · rintro ⟨n, hn, -, hatt⟩
              injection hn with hn2
              have hnn : n = k.toNat := by omega
              rw [hnn, hdp] at hatt
              have hge := List.get?_eq_none.1 hga
              omega
        · rw [if_neg hb]
          simp only [exOk]
          constructor
          · intro h
            exact Bool.noConfusion h
          · rintro ⟨n, hn, hlen, -⟩
            injection hn with hn2
            exact absurd ⟨by omega, by omega⟩ hb

/-- C10: for every session whose detail cache only holds ordinals of real
index entries (an invariant of every reachable session: entries are inserted
only after the bounds check, and the index is fixed for the session's
lifetime), (a) `getMessageDetail` succeeds iff the ordinal part of the id
parses to a number naming an index entry; (b) a successful detail echoes the
given folderId portion back unvalidated; (c) `getAttachment` succeeds iff the
ordinal names an index entry and the attachment index is within the parsed
message's attachment list. Neither call ever inspects `folderMessageMap`. -/
theorem claim_C10 (s : MboxSession)
    (hwf : ∀ p ∈ s.detailCache, p.1 < s.messageIndex.length)
    (messageId : String) (attachmentIndex : Nat) :
    (exOk (getMboxMessageDetail s messageId).1 = true ↔
      ∃ n : Nat, jsParseInt ((jsSplit messageId "::").getD 1 "") = some (n : Int) ∧
        n < s.messageIndex.length) ∧
    (∀ d, (getMboxMessageDetail s messageId).1 = Except.ok d →
      d.folderId = (jsSplit messageId "::").headD "") ∧
    (exOk (getMboxAttachmentBuffer s messageId attachmentIndex).1 = true ↔
      ∃ n : Nat, jsParseInt ((jsSplit messageId "::").getD 1 "") = some (n : Int) ∧
        n < s.messageIndex.length ∧
        attachmentIndex < (detailParsedAt s n).attachments.length) :=
  ⟨detail_ok_iff s hwf messageId,
   fun d => detail_folderId s messageId d,
   attach_ok_iff s hwf messageId attachmentIndex⟩

/-- C10 witness: on a one-message session, `getMessageDetail` with the id
`ghost::0` succeeds even though no folder `ghost` exists. -/
theorem claim_C10_witness :
    exOk (getMboxMessageDetail (sampleSession 1) "ghost::0").1 = true :=
  (claim_C10 (sampleSession 1)
      (fun p hp => absurd hp (by simp [sampleSession])) "ghost::0" 0).1.mpr
    ⟨0, by decide, by decide⟩

-- ── claim C5: full-folder listing and ordinal order ──

theorem jmSet_mem [DecidableEq K] (m : List (K × V)) (k : K) (v : V)
    {p : K × V} (hp : p ∈ jmSet m k v) : p = (k, v) ∨ p ∈ m := by
  induction m with
  | nil =>
    rw [jmSet] at hp
    exact Or.inl (List.mem_singleton.1 hp)
  | cons hd t ih =>
    obtain ⟨k2, v2⟩ := hd
    rw [jmSet] at hp
    by_cases hk : k = k2
    · rw [if_pos hk] at hp
      rcases List.mem_cons.1 hp with h | h
      · exact Or.inl (by rw [h, hk])
      · exact Or.inr (List.mem_cons_of_mem _ h)
    · rw [if_neg hk] at hp
      rcases List.mem_cons.1 hp with h | h
      · exact Or.inr (h ▸ List.mem_cons_self _ _)
      · rcases ih h with h2 | h2
        · exact Or.inl h2
        · exact Or.inr (List.mem_cons_of_mem _ h2)

theorem jmHas_set_mono [DecidableEq K] (m : List (K × V)) (k k2 : K) (v : V)
    (h : jmHas m k2 = true) : jmHas (jmSet m k v) k2 = true := by
  by_cases hk : k2 = k
  · subst hk
    rw [jmHas, jmFind_set_self]
    rfl
  · rw [jmHas, jmFind_set_other m k k2 v hk]
    exact h

theorem loadSummaries_mono (s : MboxSession) (folderId : String) (L : List Nat) :
    ∀ (fis : List Nat) (cache : List (Nat × EmailSummary)) (n : Nat) (g : Nat),
      jmHas cache g = true →
      jmHas (loadSummaries s folderId L fis cache n).1 g = true := by
  intro fis
  induction fis with
  | nil =>
    intro cache n g h
    exact h
  | cons f2 rest ih =>
    intro cache n g h
    simp only [loadSummaries]
    split
    · exact ih cache n g h
    · exact ih _ _ g (jmHas_set_mono _ _ _ _ h)

theorem loadSummaries_covers (s : MboxSession) (folderId : String) (L : List Nat) :
    ∀ (fis : List Nat) (cache : List (Nat × EmailSummary)) (n : Nat),
      ∀ fi ∈ fis, jmHas (loadSummaries s folderId L fis cache n).1 (L.getD fi 0) = true := by
  intro fis
  induction fis with
  | nil =>
    intro cache n fi hfi
    exact absurd hfi (List.not_mem_nil fi)
  | cons f2 rest ih =>
    intro cache n fi hfi
    simp only [loadSummaries]
    rcases List.mem_cons.1 hfi with heq | hmem
    · subst heq
      split
      · next hhit => exact loadSummaries_mono s folderId L rest cache n _ hhit
      · next hmiss =>
        refine loadSummaries_mono s folderId L rest _ _ _ ?_
        rw [jmHas, jmFind_set_self]
        rfl
    · split
      · exact ih cache n fi hmem
      · exact ih _ _ fi hmem

theorem ensure_covers (s : MboxSession) (folderId : String) (L : List Nat) (needed : Nat)
    (hf : jmFind s.folderMessageMap folderId = some L)
    (hload : ∀ fi, fi < jmGetD s.folderLoadedUpTo folderId 0 →
      jmHas s.summaryCache (L.getD fi 0) = true) :
    ∀ fi, fi < min needed L.length →
      jmHas (ensureFolderSummariesLoaded s folderId needed).1.summaryCache
        (L.getD fi 0) = true := by
  intro fi hfi
  rw [ensureFolderSummariesLoaded, hf]
  simp only []
  split
  · next hle => exact hload fi (lt_of_lt_of_le hfi hle)
  · next hgt =>
    simp only []
    by_cases h3 : fi < jmGetD s.folderLoadedUpTo folderId 0
    · exact loadSummaries_mono s folderId L _ _ _ _ (hload fi h3)
    · exact loadSummaries_covers s folderId L _ _ _ fi
        (List.mem_range'_1.2 ⟨Nat.le_of_not_lt h3, by omega⟩)

theorem filterMap_summaries (SC : List (Nat × EmailSummary)) (fid : String) (L : List Nat) :
    ∀ fis : List Nat, (∀ fi ∈ fis, jmHas SC (L.getD fi 0) = true) →
    ((fis.filterMap (fun fi =>
        match jmFind SC (L.getD fi 0) with
        | some cached =>
          some { cached with
                  folderId := fid
                  id := fid ++ "::" ++ natToStr (L.getD fi 0) }
        | none => none)).map (fun m => m.id)
      = fis.map (fun fi => fid ++ "::" ++ natToStr (L.getD fi 0))) ∧
    (fis.filterMap (fun fi =>
        match jmFind SC (L.getD fi 0) with
        | some cached =>
          some { cached with
                  folderId := fid
                  id := fid ++ "::" ++ natToStr (L.getD fi 0) }
        | none => none)).length = fis.length := by
  intro fis
  induction fis with
  | nil => exact fun _ => ⟨rfl, rfl⟩
  | cons f2 rest ih =>
    intro hall
    have hhit := hall f2 (List.mem_cons_self f2 rest)
    rw [jmHas] at hhit
    cases hj : jmFind SC (L.getD f2 0) with
    | none =>
      rw [hj] at hhit
      exact absurd hhit (by simp)
    | some cached =>
      have ihr := ih (fun fi hfi => hall fi (List.mem_cons_of_mem f2 hfi))
      rw [List.filterMap_cons]
      rw [hj]
      simp only [List.map_cons, List.length_cons]
      constructor
      · rw [ihr.1]
      · rw [ihr.2]

theorem range_getD_map_id (fid : String) : ∀ L : List Nat,
    (List.range L.length).map (fun fi => fid ++ "::" ++ natToStr (L.getD fi 0))
      = L.map (fun g => fid ++ "::" ++ natToStr g) := by
  intro L
  induction L with
  | nil => rfl
  | cons a t ih =>
    rw [List.length_cons, List.range_succ_eq_map, List.map_cons, List.map_map, List.map_cons]
    congr 1

theorem getMessages_full (s : MboxSession) (folderId : String) (L : List Nat)
    (hf : jmFind s.folderMessageMap folderId = some L)
    (hload : ∀ fi, fi < jmGetD s.folderLoadedUpTo folderId 0 →
      jmHas s.summaryCache (L.getD fi 0) = true) :
    (getMboxMessages s folderId 0 L.length).1.2 = L.length ∧
    ((getMboxMessages s folderId 0 L.length).1.1.map (fun m => m.id))
      = L.map (fun g => folderId ++ "::" ++ natToStr g) ∧
    (getMboxMessages s folderId 0 L.length).1.1.length = L.length := by
  have hcov : ∀ fi ∈ List.range' 0 (min (0 + L.length) L.length - 0),
      jmHas (ensureFolderSummariesLoaded s folderId
          (min (0 + L.length) L.length)).1.summaryCache (L.getD fi 0) = true := by
    intro fi hfi
    have h2 := List.mem_range'_1.1 hfi
    exact ensure_covers s folderId L (min (0 + L.length) L.length) hf hload fi (by omega)
  have hfm := filterMap_summaries
    (ensureFolderSummariesLoaded s folderId (min (0 + L.length) L.length)).1.summaryCache
    folderId L (List.range' 0 (min (0 + L.length) L.length - 0)) hcov
  have h0 : min (0 + L.length) L.length - 0 = L.length := by omega
  rw [getMboxMessages, hf]
  simp only []
  refine ⟨trivial, ?_, ?_⟩
  · refine hfm.1.trans ?_
    rw [h0, ← List.range_eq_range']
    exact range_getD_map_id folderId L
  · refine hfm.2.trans ?_
    rw [h0]
    simp [List.length_range']

theorem pairwise_le_append_single (l : List Nat) (i : Nat)
    (h1 : List.Pairwise (· ≤ ·) l) (h2 : ∀ x ∈ l, x ≤ i) :
    List.Pairwise (· ≤ ·) (l ++ [i]) ∧ ∀ x ∈ l ++ [i], x ≤ i := by
  constructor
  · rw [List.pairwise_append]
    refine ⟨h1, List.pairwise_singleton _ _, ?_⟩
    intro x hx y hy
    rw [List.mem_singleton] at hy
    rw [hy]
    exact h2 x hx
  · intro x hx
    rcases List.mem_append.1 hx with h | h
    · exact h2 x h
    · rw [List.mem_singleton] at h
      exact le_of_eq h

theorem append_entry_pairs (m : List (String × List Nat)) (key : String) (i : Nat)
    (h : ∀ p ∈ m, List.Pairwise (· ≤ ·) p.2 ∧ ∀ x ∈ p.2, x ≤ i) :
    ∀ p ∈ jmSet m key (jmGetD m key [] ++ [i]),
      List.Pairwise (· ≤ ·) p.2 ∧ ∀ x ∈ p.2, x ≤ i := by
  intro p hp
  rcases jmSet_mem _ _ _ hp with heq | hmem
  · subst heq
    cases hj : jmFind m key with
    | none =>
      simp only []
      rw [jmGetD, hj]
      simp only [Option.getD_none, List.nil_append]
      refine ⟨List.pairwise_singleton _ _, ?_⟩
      intro x hx
      rw [List.mem_singleton] at hx
      exact le_of_eq hx
    | some l =>
      have hl := h (key, l) (jmFind_mem _ _ _ hj)
      simp only []
      rw [jmGetD, hj]
      simp only [Option.getD_some]
      exact pairwise_le_append_single l i hl.1 hl.2
  · exact h p hmem

theorem labelTick_pairs (i : Nat) (st2 : List (String × Nat) × List (String × List Nat))
    (label : String)
    (h : ∀ p ∈ st2.2, List.Pairwise (· ≤ ·) p.2 ∧ ∀ x ∈ p.2, x ≤ i) :
    ∀ p ∈ (labelTick i st2 label).2, List.Pairwise (· ≤ ·) p.2 ∧ ∀ x ∈ p.2, x ≤ i := by
  rw [labelTick]
  by_cases hn : normalizeLabel label = ""
  · rw [if_pos hn]
    exact h
  · rw [if_neg hn]
    simp only []
    exact append_entry_pairs st2.2 (normalizeLabel label) i h

theorem collectStep_pairs (st : List (String × Nat) × List (String × List Nat)) (i : Nat)
    (labels : List String)
    (h : ∀ p ∈ st.2, List.Pairwise (· ≤ ·) p.2 ∧ ∀ x ∈ p.2, x ≤ i) :
    ∀ p ∈ (collectStep st i labels).2, List.Pairwise (· ≤ ·) p.2 ∧ ∀ x ∈ p.2, x ≤ i := by
  rw [collectStep]
  refine foldl_preserves_mem (f := labelTick i)
    (P := fun st2 => ∀ p ∈ st2.2, List.Pairwise (· ≤ ·) p.2 ∧ ∀ x ∈ p.2, x ≤ i)
    labels (fun s2 a _ hP => labelTick_pairs i s2 a hP) _ ?_
  split
  · simp only []
    exact append_entry_pairs st.2 "All Mail" i h
  · exact h

theorem collectGo_pairs : ∀ (midx : List MessageIndex) (i : Nat)
    (st : List (String × Nat) × List (String × List Nat)),
    (∀ p ∈ st.2, List.Pairwise (· ≤ ·) p.2 ∧ ∀ x ∈ p.2, x ≤ i) →
    ∀ p ∈ (collectGo st i midx).2, List.Pairwise (· ≤ ·) p.2 := by
  intro midx
  induction midx with
  | nil =>
    intro i st h p hp
    exact (h p (by simpa [collectGo] using hp)).1
  | cons m rest ih =>
    intro i st h p hp
    refine ih (i + 1) (collectStep st i m.labels) ?_ p ?_
    · intro q hq
      have h2 := collectStep_pairs st i m.labels h q hq
      exact ⟨h2.1, fun x hx => Nat.le_succ_of_le (h2.2 x hx)⟩
    · simpa [collectGo] using hp

theorem fmap_pairwise (midx : List MessageIndex) (fid : String) (L : List Nat)
    (hfind : jmFind (buildFolderTree midx).2 fid = some L) :
    List.Pairwise (· ≤ ·) L := by
  rw [buildFolderTree] at hfind
  simp only [] at hfind
  rw [fmapsOf, addAllMail] at hfind
  simp only [] at hfind
  have hp := jmFind_mem _ _ _ hfind
  rcases jmSet_mem _ _ _ hp with heq | hmem
  · injection heq with h1 h2
    rw [h2]
    exact (List.pairwise_lt_range _).imp (fun h => le_of_lt h)
  · split at hmem
    · exact collectGo_pairs midx 0 ([], [])
        (fun q hq => absurd hq (List.not_mem_nil q)) (fid, L) hmem
    · rcases jmSet_mem _ _ _ hmem with heq2 | hmem2
      · injection heq2 with h1 h2
        rw [h2]
        exact List.Pairwise.nil
      · exact collectGo_pairs midx 0 ([], [])
          (fun q hq => absurd hq (List.not_mem_nil q)) (fid, L) hmem2

/-- C5 (amended): (a) for every session whose per-folder loaded counter is
sound (every position below it already has its summary cached — an invariant
of every reachable session), listing a folder present in `folderMessageMap`
from offset 0 with the folder's full length as the limit returns total equal
to the mapped ordinal list's length and exactly one summary per mapped
ordinal, in the mapped list's order (ids enumerate the list in order); this
holds with no assumption on the decoder, since a failed header extraction
falls back to a placeholder summary rather than dropping the message.
(b) Every folder's mapped ordinal list is in non-decreasing order — but not
necessarily strictly increasing: a duplicated label on one message maps the
same ordinal twice (see the counterexample). -/
theorem claim_C5_amended :
    (∀ (s : MboxSession) (folderId : String) (L : List Nat),
      jmFind s.folderMessageMap folderId = some L →
      (∀ fi, fi < jmGetD s.folderLoadedUpTo folderId 0 →
        jmHas s.summaryCache (L.getD fi 0) = true) →
      (getMboxMessages s folderId 0 L.length).1.2 = L.length ∧
      ((getMboxMessages s folderId 0 L.length).1.1.map (fun m => m.id))
        = L.map (fun g => folderId ++ "::" ++ natToStr g) ∧
      (getMboxMessages s folderId 0 L.length).1.1.length = L.length) ∧
    (∀ (midx : List MessageIndex) (fid : String) (L : List Nat),
      jmFind (buildFolderTree midx).2 fid = some L → List.Pairwise (· ≤ ·) L) :=
  ⟨fun s folderId L hf hload => getMessages_full s folderId L hf hload,
   fun midx fid L hfind => fmap_pairwise midx fid L hfind⟩

/-- C5 counterexample: one message carrying the duplicate label list `A,A`
maps ordinal 0 twice under folder `A`, so the listing returns the same
message twice and the folder's ordinal list is not strictly increasing. -/
theorem claim_C5_counterexample :
    jmGetD (buildFolderTree c5dupIndex).2 "A" [] = [0, 0] ∧
    ((getMboxMessages c5dupSession "A" 0 2).1.1.map (fun m => m.id)) = ["A::0", "A::0"] ∧
    ¬ List.Pairwise (· < ·) (jmGetD (buildFolderTree c5dupIndex).2 "A" []) :=
  ⟨by decide, by decide, by decide⟩

/-- C5 witness: the full listing of a concrete two-message folder with
nothing preloaded returns total 2 and ids `f::0`, `f::1` in order. -/
theorem claim_C5_witness :
    (getMboxMessages (sampleSession 2) "f" 0 (List.range 2).length).1.2
      = (List.range 2).length ∧
    ((getMboxMessages (sampleSession 2) "f" 0 (List.range 2).length).1.1.map
        (fun m => m.id))
      = (List.range 2).map (fun g => "f" ++ "::" ++ natToStr g) :=
  ⟨(claim_C5_amended.1 (sampleSession 2) "f" (List.range 2) (by decide)
      (fun fi hfi => absurd hfi (Nat.not_lt_zero fi))).1,
   (claim_C5_amended.1 (sampleSession 2) "f" (List.range 2) (by decide)
      (fun fi hfi => absurd hfi (Nat.not_lt_zero fi))).2.1⟩

end Mbox
